import Mathlib

/-!
# Verification of the `structured_llm` core pipeline

Shallow embedding of the repository's structured-output pipeline:

* `structured_llm/grammar.py` — `GBNFGrammarGenerator`: Pydantic JSON-Schema
  to GBNF grammar text compiler (cycle-safe rule generation, enum emission,
  string escaping, object field layout);
* `structured_llm/client.py` — `LlamaCppClient.complete`: request payload
  construction and the error taxonomy of a single completion call;
* `structured_llm/validator.py` — `OutputValidator.validate`: strict JSON
  parse followed by model validation.

Grammar expressions are embedded as an AST (`GExpr`) whose `render`
function reproduces, byte for byte, the strings the Python code builds by
concatenation; the formal language of an expression is given by the
inductive `GMatch` relation.
-/

namespace StructuredLLM

/-- A value allowed to appear in a JSON-Schema `enum` list, as dispatched by
`GBNFGrammarGenerator._enum_rule` (`isinstance` checks for `str`, `bool`,
`int | float`, `None`).  Python `float` enum members are modelled by the
integer constructor (the code formats both with `str(v)`); values of any
other runtime type are `other`. -/
inductive JVal where
  | s (v : String)
  | b (v : Bool)
  | i (v : Int)
  | null
  | other
deriving Repr, DecidableEq

/-- A JSON-Schema node, covering exactly the shapes `_schema_to_rule`
dispatches on: `$ref`, `anyOf`, `type: string` (with optional `enum`),
`type: integer/number/boolean/null/array/object`, a bare `enum` without a
recognised type, and an unsupported remainder. -/
inductive Schema where
  | ref (target : String)
  | anyOf (variants : List Schema)
  | str (enumVals : Option (List JVal))
  | integer
  | number
  | boolean
  | nullT
  | array (items : Option Schema)
  | object (properties : List (String × Schema)) (required : List String)
  | bareEnum (values : List JVal)
  | unsupported (descr : String)
deriving Repr

/-- GBNF expression AST.  `lit s` is a quoted grammar literal that denotes
the character sequence `s`; `ruleRef` is a named rule reference; `seqWS w a b`
is concatenation, where `w` records the exact whitespace the Python code
writes between the two sub-expressions in the grammar text (whitespace
between tokens of a GBNF rule body is not semantically significant);
`altN` is a parenthesised alternation `( a | b | ... )`; `opt` is `( a )?`;
`star` is `( a )*`; `charIf p` is a character class matching a single
character satisfying `p` (used only to give semantics to the preamble's
`string`/`ws` primitives, never emitted by the compiler). -/
inductive GExpr where
  | lit (s : String)
  | ruleRef (name : String)
  | seqWS (w : String) (a b : GExpr)
  | altN (alts : List GExpr)
  | opt (a : GExpr)
  | star (a : GExpr)
  | charIf (p : Char → Bool)

/-- Per-character body of `_escape_string_for_gbnf`: backslash and double
quote get a preceding backslash, every other character (including control
characters) is passed through unchanged. -/
def escChar (c : Char) : List Char :=
  if c = '\\' then ['\\', '\\']
  else if c = '"' then ['\\', '"']
  else [c]

/-- `_escape_string_for_gbnf` (grammar.py lines 69-74):
`value.replace("\\", "\\\\").replace('"', '\\"')`.  The two sequential
`str.replace` passes are equivalent to this single character-wise pass,
because the first pass introduces no `"` and the second inserts
backslashes only immediately before `"` characters. -/
def escapeStringForGbnf (value : String) : String :=
  ⟨value.data.foldr (fun c r => escChar c ++ r) []⟩

/-- Characters kept verbatim by `_rule_name_for_model`'s
`re.sub(r"[^a-zA-Z0-9]", "-", ...)`. -/
def isAlnumAscii (c : Char) : Bool :=
  (('a' ≤ c && c ≤ 'z') || ('A' ≤ c && c ≤ 'Z') || ('0' ≤ c && c ≤ '9'))

/-- `_rule_name_for_model` (grammar.py lines 61-66): replace every
non-alphanumeric character by `-`, strip leading/trailing `-`, lower-case,
and fall back to `"object"` when the result is empty. -/
def ruleNameForModel (modelName : String) : String :=
  let subbed := modelName.data.map (fun c => if isAlnumAscii c then c else '-')
  let stripped := ((subbed.dropWhile (· = '-')).reverse.dropWhile (· = '-')).reverse
  let lowered := stripped.map Char.toLower
  if lowered.isEmpty then "object" else ⟨lowered⟩

mutual

/-- Render a `GExpr` to the exact GBNF text the Python code emits. -/
def render : GExpr → String
  | .lit s => "\"" ++ escapeStringForGbnf s ++ "\""
  | .ruleRef n => n
  | .seqWS w a b => render a ++ w ++ render b
  | .altN alts => "(" ++ renderAlts alts ++ ")"
  | .opt a => "(" ++ render a ++ ")?"
  | .star a => "(" ++ render a ++ ")*"
  | .charIf _ => ""

/-- Render the members of an alternation joined by `" | "`
(Python `" | ".join(...)`). -/
def renderAlts : List GExpr → String
  | [] => ""
  | [e] => render e
  | e :: rest => render e ++ " | " ++ renderAlts rest

end

/-- Language of a GBNF expression, relative to an environment `env`
giving the body of each named rule: `GMatch env e cs` holds when the
expression `e` derives exactly the character sequence `cs`. -/
inductive GMatch (env : String → Option GExpr) : GExpr → List Char → Prop where
  | lit (s : String) : GMatch env (.lit s) s.data
  | ruleRef {n : String} {e : GExpr} {cs : List Char} :
      env n = some e → GMatch env e cs → GMatch env (.ruleRef n) cs
  | seqWS {w : String} {a b : GExpr} {u v : List Char} :
      GMatch env a u → GMatch env b v → GMatch env (.seqWS w a b) (u ++ v)
  | altN {alts : List GExpr} {e : GExpr} {cs : List Char} :
      e ∈ alts → GMatch env e cs → GMatch env (.altN alts) cs
  | optNone {a : GExpr} : GMatch env (.opt a) []
  | optSome {a : GExpr} {cs : List Char} :
      GMatch env a cs → GMatch env (.opt a) cs
  | starNil {a : GExpr} : GMatch env (.star a) []
  | starCons {a : GExpr} {u v : List Char} :
      GMatch env a u → GMatch env (.star a) v → GMatch env (.star a) (u ++ v)
  | charIf {p : Char → Bool} {c : Char} :
      p c = true → GMatch env (.charIf p) [c]

/-- Error outcome of grammar compilation.  `gen` mirrors
`GrammarGenerationError`; `noFuel` marks exhaustion of the explicit
recursion budget the Lean embedding threads through the recursion (the
Python code has no such budget — `noFuel` is proved unreachable for the
budget `generate` supplies, which is the termination argument). -/
inductive GErr where
  | gen (msg : String)
  | noFuel
deriving Repr, DecidableEq

/-- `self._extra_rules`: insertion-ordered mapping from rule name to rule
body (a Python `dict`, so insertion order is preserved and assigning to an
existing key keeps its position). -/
abbrev Ctx := List (String × GExpr)

/-- `self._defs = schema.get("$defs", {})`: named definitions. -/
abbrev Defs := List (String × Schema)

/-- `safe_name not in self._extra_rules` membership test. -/
def ctxHas (ctx : Ctx) (n : String) : Bool := ctx.any (fun p => p.1 == n)

/-- `self._extra_rules[name] = e` when `name` is already a key: the value
is replaced in place, keeping the dict position. -/
def ctxSet (ctx : Ctx) (n : String) (e : GExpr) : Ctx :=
  ctx.map (fun p => if p.1 == n then (n, e) else p)

/-- `str.split("/")` on character lists (`"a/b"` ↦ `["a", "b"]`, the
empty string ↦ `[""]`). -/
def splitSlash : List Char → List (List Char)
  | [] => [[]]
  | c :: rest =>
    if c = '/' then [] :: splitSlash rest
    else
      match splitSlash rest with
      | [] => [[c]]
      | g :: gs => (c :: g) :: gs

/-- The `ref.lstrip("#/").split("/")` parse of `_resolve_ref`: succeeds
with the definition name exactly when the stripped reference splits as
`["$defs", name]`. -/
def parseRefTarget (ref : String) : Option String :=
  match splitSlash (ref.data.dropWhile (fun c => c = '#' || c = '/')) with
  | [a, b] => if a = "$defs".data then some ⟨b⟩ else none
  | _ => none

/-- One alternative of `_enum_rule` (grammar.py lines 240-251): strings
become the three-token literal `"\"" "v" "\""`, booleans the bare rule
names `true`/`false`, ints (and floats) the quoted token `"{v}"`, `None`
the bare `null`; anything else raises `GrammarGenerationError`. -/
def enumChoice (v : JVal) : Except GErr GExpr :=
  match v with
  | .s str => .ok (.seqWS " " (.lit "\"") (.seqWS " " (.lit str) (.lit "\"")))
  | .b true => .ok (.ruleRef "true")
  | .b false => .ok (.ruleRef "false")
  | .i n => .ok (.lit (toString n))
  | .null => .ok (.ruleRef "null")
  | .other => .error (.gen "Enum value has unsupported type.")

/-- The `for v in values` loop of `_enum_rule`, collecting the choices in
declared order (the first unsupported value aborts the compilation). -/
def enumChoices : List JVal → Except GErr (List GExpr)
  | [] => .ok []
  | v :: rest =>
    match enumChoice v with
    | .error e => .error e
    | .ok c =>
      match enumChoices rest with
      | .error e => .error e
      | .ok cs => .ok (c :: cs)

/-- `_enum_rule`: `"(" + " | ".join(choices) + ")"`. -/
def enumRule (values : List JVal) : Except GErr GExpr :=
  match enumChoices values with
  | .error e => .error e
  | .ok cs => .ok (.altN cs)

/-- `_array_rule`'s body template
`"[" ws ({item} (ws "," ws {item})*)? ws "]"`. -/
def arrayExpr (item : GExpr) : GExpr :=
  .seqWS " " (.lit "[")
    (.seqWS " " (.ruleRef "ws")
      (.seqWS " "
        (.opt (.seqWS " " item
          (.star (.seqWS " " (.ruleRef "ws")
            (.seqWS " " (.lit ",") (.seqWS " " (.ruleRef "ws") item))))))
        (.seqWS " " (.ruleRef "ws") (.lit "]"))))

/-- A required-field pair `"\"" "key" "\"" ws ":" ws VALUE`
(grammar.py line 292). -/
def reqPair (key : String) (value : GExpr) : GExpr :=
  .seqWS " " (.lit "\"")
    (.seqWS " " (.lit key)
      (.seqWS " " (.lit "\"")
        (.seqWS " " (.ruleRef "ws")
          (.seqWS " " (.lit ":")
            (.seqWS " " (.ruleRef "ws") value)))))

/-- An optional-field fragment
`(ws "," ws "\"" "key" "\"" ws ":" ws VALUE)?` (grammar.py line 300). -/
def optFragment (key : String) (value : GExpr) : GExpr :=
  .opt (.seqWS " " (.ruleRef "ws")
    (.seqWS " " (.lit ",")
      (.seqWS " " (.ruleRef "ws") (reqPair key value))))

/-- `body = '"{"  ws ' + pairs[0]` — note the two spaces after `"{"`. -/
def objStart (p0 : GExpr) : GExpr :=
  .seqWS "  " (.lit "\x7b") (.seqWS " " (.ruleRef "ws") p0)

/-- `body += ' ws "," ws ' + p` for the remaining required pairs. -/
def addReqPair (acc p : GExpr) : GExpr :=
  .seqWS " " acc
    (.seqWS " " (.ruleRef "ws")
      (.seqWS " " (.lit ",") (.seqWS " " (.ruleRef "ws") p)))

/-- `body += ' ' + p` for each optional fragment. -/
def addOptPair (acc p : GExpr) : GExpr := .seqWS " " acc p

/-- `body += ' ws "}"'`. -/
def closeObj (acc : GExpr) : GExpr :=
  .seqWS " " acc (.seqWS " " (.ruleRef "ws") (.lit "\x7d"))

/-- `'"{" ws "}"'`, the empty/dynamic-object rule. -/
def emptyObjExpr : GExpr :=
  .seqWS " " (.lit "\x7b") (.seqWS " " (.ruleRef "ws") (.lit "\x7d"))

/-- Object body when at least one required field exists (grammar.py
lines 311-319): required pairs joined with mandatory commas, then the
optional fragments, then `ws "}"`. -/
def reqBody (p0 : GExpr) (restReq optPs : List GExpr) : GExpr :=
  closeObj (optPs.foldl addOptPair (restReq.foldl addReqPair (objStart p0)))

/-- Object body with no required fields (grammar.py lines 320-334): the
first optional field's bare pair followed by the remaining optional
fragments, all wrapped in one `( ... )?` group. -/
def noReqBody (k0 : String) (firstExpr : GExpr) (restOpt : List GExpr) : GExpr :=
  closeObj (.seqWS "  " (.lit "\x7b")
    (.seqWS " " (.ruleRef "ws")
      (.opt (restOpt.foldl addOptPair (reqPair k0 firstExpr)))))

mutual

/-- `GBNFGrammarGenerator._schema_to_rule` (grammar.py lines 149-200).
The `Nat` argument is the explicit recursion budget; every recursive call
consumes one unit. -/
def schemaToRule (dfs : Defs) : Nat → Schema → String → Ctx → Except GErr (GExpr × Ctx)
  | 0, _, _, _ => .error .noFuel
  | n + 1, s, ruleName, ctx =>
    match s with
    | .ref target => resolveRef dfs n target ruleName ctx
    | .anyOf variants =>
        (match handleAnyOf dfs n variants ruleName 0 ctx with
         | .error e => .error e
         | .ok (es, ctx₁) => .ok (.altN es, ctx₁))
    | .str enumVals =>
        (match enumVals with
         | some vals =>
            (match enumRule vals with
             | .error e => .error e
             | .ok ex => .ok (ex, ctx))
         | none => .ok (.ruleRef "string", ctx))
    | .integer => .ok (.ruleRef "integer", ctx)
    | .number => .ok (.ruleRef "number", ctx)
    | .boolean => .ok (.altN [.ruleRef "true", .ruleRef "false"], ctx)
    | .nullT => .ok (.ruleRef "null", ctx)
    | .array items => arrayRule dfs n items ruleName ctx
    | .object props required => objectRule dfs n props required ruleName ctx
    | .bareEnum vals =>
        (match enumRule vals with
         | .error e => .error e
         | .ok ex => .ok (ex, ctx))
    | .unsupported d =>
        .error (.gen ("Unsupported schema node (rule '" ++ ruleName ++ "'): " ++ d))

/-- `GBNFGrammarGenerator._resolve_ref` (grammar.py lines 202-227): parse
the `#/$defs/Name` pointer, look the definition up, and — unless the
sanitised rule name is already present — reserve the name with a
placeholder *before* recursing into the body, overwriting the placeholder
with the real body afterwards.  Always returns the rule name reference. -/
def resolveRef (dfs : Defs) : Nat → String → String → Ctx → Except GErr (GExpr × Ctx)
  | 0, _, _, _ => .error .noFuel
  | n + 1, target, _ruleName, ctx =>
    match parseRefTarget target with
    | none => .error (.gen ("Cannot resolve $ref: " ++ target))
    | some defName =>
      match dfs.lookup defName with
      | none => .error (.gen ("$ref '" ++ target ++ "' not found in schema $defs."))
      | some defSchema =>
        let safeName := ruleNameForModel defName
        if ctxHas ctx safeName then
          .ok (.ruleRef safeName, ctx)
        else
          match schemaToRule dfs n defSchema safeName (ctx ++ [(safeName, GExpr.ruleRef "null")]) with
          | .error e => .error e
          | .ok (expr, ctx₂) => .ok (.ruleRef safeName, ctxSet ctx₂ safeName expr)

/-- `GBNFGrammarGenerator._handle_any_of` (grammar.py lines 229-236): the
`for i, variant in enumerate(variants)` loop collecting one compiled
expression per variant in declared order. -/
def handleAnyOf (dfs : Defs) : Nat → List Schema → String → Nat → Ctx → Except GErr (List GExpr × Ctx)
  | 0, _, _, _, _ => .error .noFuel
  | _ + 1, [], _, _, ctx => .ok ([], ctx)
  | n + 1, v :: rest, ruleName, i, ctx =>
      match schemaToRule dfs n v (ruleName ++ "-opt" ++ toString i) ctx with
      | .error e => .error e
      | .ok (ex, ctx₁) =>
        match handleAnyOf dfs n rest ruleName (i + 1) ctx₁ with
        | .error e => .error e
        | .ok (es, ctx₂) => .ok (ex :: es, ctx₂)

/-- `GBNFGrammarGenerator._array_rule` (grammar.py lines 254-266):
untyped arrays fall back to `string` items. -/
def arrayRule (dfs : Defs) : Nat → Option Schema → String → Ctx → Except GErr (GExpr × Ctx)
  | 0, _, _, _ => .error .noFuel
  | n + 1, items, ruleName, ctx =>
      match items with
      | none => .ok (arrayExpr (.ruleRef "string"), ctx)
      | some itemSchema =>
          match schemaToRule dfs n itemSchema (ruleName ++ "-item") ctx with
          | .error e => .error e
          | .ok (itemExpr, ctx₁) => .ok (arrayExpr itemExpr, ctx₁)

/-- The `for field_name in req_fields` loop of `_object_rule`
(grammar.py lines 286-292), realised as one pass over `properties` that
keeps exactly the fields whose key occurs in `required`, in declared
order, threading the compile context left to right. -/
def reqPairsLoop (dfs : Defs) : Nat → List (String × Schema) → List String → String → Ctx → Except GErr (List GExpr × Ctx)
  | 0, _, _, _, _ => .error .noFuel
  | _ + 1, [], _, _, ctx => .ok ([], ctx)
  | n + 1, (key, fs) :: rest, required, ruleName, ctx =>
      if required.contains key then
        match schemaToRule dfs n fs (ruleName ++ "-" ++ ruleNameForModel key) ctx with
        | .error e => .error e
        | .ok (v, ctx₁) =>
          match reqPairsLoop dfs n rest required ruleName ctx₁ with
          | .error e => .error e
          | .ok (ps, ctx₂) => .ok (reqPair key v :: ps, ctx₂)
      else
        reqPairsLoop dfs n rest required ruleName ctx

/-- The `for field_name in opt_fields` loop of `_object_rule`
(grammar.py lines 294-301): fields not listed in `required`, each wrapped
as a self-contained optional fragment. -/
def optPairsLoop (dfs : Defs) : Nat → List (String × Schema) → List String → String → Ctx → Except GErr (List GExpr × Ctx)
  | 0, _, _, _, _ => .error .noFuel
  | _ + 1, [], _, _, ctx => .ok ([], ctx)
  | n + 1, (key, fs) :: rest, required, ruleName, ctx =>
      if required.contains key then
        optPairsLoop dfs n rest required ruleName ctx
      else
        match schemaToRule dfs n fs (ruleName ++ "-" ++ ruleNameForModel key) ctx with
        | .error e => .error e
        | .ok (v, ctx₁) =>
          match optPairsLoop dfs n rest required ruleName ctx₁ with
          | .error e => .error e
          | .ok (ps, ctx₂) => .ok (optFragment key v :: ps, ctx₂)

/-- `GBNFGrammarGenerator._object_rule` (grammar.py lines 268-336).  With
no properties (or no pairs) the empty-object rule is returned; with at
least one required field the `reqBody` layout is used; otherwise the
first optional field's value expression is recomputed against the current
context (grammar.py lines 325-330) and the `noReqBody` layout is used. -/
def objectRule (dfs : Defs) : Nat → List (String × Schema) → List String → String → Ctx → Except GErr (GExpr × Ctx)
  | 0, _, _, _, _ => .error .noFuel
  | n + 1, props, required, ruleName, ctx =>
    match props with
    | [] => .ok (emptyObjExpr, ctx)
    | (k0, s0) :: _ =>
      match reqPairsLoop dfs n props required ruleName ctx with
      | .error e => .error e
      | .ok (reqPs, ctx₁) =>
        match optPairsLoop dfs n props required ruleName ctx₁ with
        | .error e => .error e
        | .ok (optPs, ctx₂) =>
          match reqPs, optPs with
          | [], [] => .ok (emptyObjExpr, ctx₂)
          | p0 :: restReq, _ => .ok (reqBody p0 restReq optPs, ctx₂)
          | [], _ :: restOpt =>
              match schemaToRule dfs n s0 (ruleName ++ "-" ++ ruleNameForModel k0) ctx₂ with
              | .error e => .error e
              | .ok (firstExpr, ctx₃) => .ok (noReqBody k0 firstExpr restOpt, ctx₃)

end

/-- The decoded text of `_GBNF_PREAMBLE` (grammar.py lines 46-58). -/
def gbnfPreamble : String :=
  "# Primitives\n" ++
  "ws        ::= ([ \\t\\n])*\n" ++
  "true      ::= \"true\"\n" ++
  "false     ::= \"false\"\n" ++
  "null      ::= \"null\"\n" ++
  "number    ::= \"-\"? ([0-9] | [1-9] [0-9]*) (\".\" [0-9]+)? ([eE] [-+]? [0-9]+)?\n" ++
  "integer   ::= \"-\"? ([0-9] | [1-9] [0-9]*)\n" ++
  "string    ::= \"\\\"\" (\n" ++
  "                [^\\x00-\\x1f\\\\\\\"]\n" ++
  "              | \"\\\\\" ([\"\\\\bfnrt/] | \"u\" [0-9a-fA-F] [0-9a-fA-F] [0-9a-fA-F] [0-9a-fA-F])\n" ++
  "              )* \"\\\"\"\n"

/-- Python `str.rstrip()` over the whitespace the preamble can end with. -/
def rstrip (s : String) : String :=
  ⟨(s.data.reverse.dropWhile (fun c => c = ' ' || c = '\t' || c = '\n' || c = '\r')).reverse⟩

/-- Result of `model.model_json_schema()`: the root schema together with
its `$defs` table. -/
structure ModelSchema where
  root : Schema
  defs : Defs

/-- The Pydantic model class handed to `generate`: its `__name__` and the
outcome of `model_json_schema()` (which may raise, grammar.py
lines 118-123). -/
structure PyModel where
  name : String
  jsonSchema : Except String ModelSchema

/-- The mutable per-instance state of a `GBNFGrammarGenerator`
(`self._extra_rules`; reset at the start of every `generate` call,
grammar.py lines 114-116). -/
structure GenState where
  extraRules : Ctx := []

mutual

/-- Structural size of a schema node, weighted so that the size of a
node strictly dominates the number of recursion-budget units the
compiler consumes before reaching the node's children (used only for
the recursion budget and its adequacy proof). -/
def schemaSize : Schema → Nat
  | .ref _ => 3
  | .anyOf vs => 3 + schemaSizeList vs
  | .str _ => 3
  | .integer => 3
  | .number => 3
  | .boolean => 3
  | .nullT => 3
  | .array none => 3
  | .array (some s) => 3 + schemaSize s
  | .object props _ => 3 + schemaSizeProps props
  | .bareEnum _ => 3
  | .unsupported _ => 3

def schemaSizeList : List Schema → Nat
  | [] => 0
  | s :: rest => 3 + schemaSize s + schemaSizeList rest

def schemaSizeProps : List (String × Schema) → Nat
  | [] => 0
  | (_, s) :: rest => 3 + schemaSize s + schemaSizeProps rest

end

/-- Sum of the sizes of all definition bodies in `$defs`. -/
def defsSize (dfs : Defs) : Nat := dfs.foldr (fun d a => schemaSize d.2 + a) 0

/-- Recursion budget handed to `schemaToRule` by `generate`: strictly
larger than the bound established in the termination lemmas, so the
`noFuel` outcome never occurs. -/
def genFuel (dfs : Defs) (root : Schema) : Nat :=
  (dfs.length + 1) * (defsSize dfs + 3) + schemaSize root + 1

/-- `GBNFGrammarGenerator.generate` (grammar.py lines 95-143): reset
per-call state, extract the JSON schema, compile the root rule, then emit
the preamble, the accumulated helper rules (in insertion order) and the
root rule, joined by newlines with one trailing newline. -/
def generate (_st : GenState) (model : PyModel) : Except GErr (String × GenState) :=
  match model.jsonSchema with
  | .error exc =>
      .error (.gen ("Could not extract JSON schema from " ++ model.name ++ ": " ++ exc))
  | .ok ms =>
    match schemaToRule ms.defs (genFuel ms.defs ms.root) ms.root "root" [] with
    | .error e => .error e
    | .ok (rootExpr, rules) =>
      let lines := rstrip gbnfPreamble ::
        (rules.map (fun r => r.1 ++ " ::= " ++ render r.2) ++
          ["root ::= " ++ render rootExpr])
      .ok (String.intercalate "\n" lines ++ "\n", { extraRules := rules })

/-! ## Semantics of the preamble rules

The preamble is emitted verbatim (`gbnfPreamble`); the following
environment gives the language of its named rules so that acceptance
statements about compiled grammars can be closed off. -/

/-- `[ \t\n]` — the `ws` character class. -/
def isGbnfWs (c : Char) : Bool := c = ' ' || c = '\t' || c = '\n'

/-- `[^\x00-\x1f\\\"]` — an unescaped JSON string character. -/
def isPlainStrChar (c : Char) : Bool :=
  !(c.toNat < 32 || c = '\\' || c = '"')

/-- `[0-9a-fA-F]`. -/
def isHexCh (c : Char) : Bool :=
  ('0' ≤ c && c ≤ '9') || ('a' ≤ c && c ≤ 'f') || ('A' ≤ c && c ≤ 'F')

/-- `[0-9]`. -/
def isDigitCh (c : Char) : Bool := 48 ≤ c.toNat && c.toNat ≤ 57

/-- Body of the preamble `string` rule. -/
def gbnfStringBody : GExpr :=
  .seqWS "" (.lit "\"")
    (.seqWS ""
      (.star (.altN [
        .charIf isPlainStrChar,
        .seqWS "" (.lit "\\") (.altN [
          .charIf (fun c =>
            c = '"' || c = '\\' || c = 'b' || c = 'f' || c = 'n' || c = 'r' || c = 't' || c = '/'),
          .seqWS "" (.lit "u")
            (.seqWS "" (.charIf isHexCh)
              (.seqWS "" (.charIf isHexCh)
                (.seqWS "" (.charIf isHexCh) (.charIf isHexCh))))])]))
      (.lit "\""))

/-- Body of the preamble `integer` rule: `"-"? ([0-9] | [1-9] [0-9]*)`. -/
def gbnfIntegerBody : GExpr :=
  .seqWS " " (.opt (.lit "-"))
    (.altN [.charIf isDigitCh,
            .seqWS " " (.charIf (fun c => '1' ≤ c && c ≤ '9')) (.star (.charIf isDigitCh))])

/-- Body of the preamble `number` rule. -/
def gbnfNumberBody : GExpr :=
  .seqWS " " gbnfIntegerBody
    (.seqWS " "
      (.opt (.seqWS " " (.lit ".") (.seqWS "" (.charIf isDigitCh) (.star (.charIf isDigitCh)))))
      (.opt (.seqWS " " (.charIf (fun c => c = 'e' || c = 'E'))
        (.seqWS " " (.opt (.charIf (fun c => c = '-' || c = '+')))
          (.seqWS "" (.charIf isDigitCh) (.star (.charIf isDigitCh)))))))

/-- Languages of the named rules defined by `gbnfPreamble`. -/
def preambleEnv : String → Option GExpr := fun n =>
  if n = "ws" then some (.star (.charIf isGbnfWs))
  else if n = "true" then some (.lit "true")
  else if n = "false" then some (.lit "false")
  else if n = "null" then some (.lit "null")
  else if n = "integer" then some gbnfIntegerBody
  else if n = "number" then some gbnfNumberBody
  else if n = "string" then some gbnfStringBody
  else none

/-! ## JSON values (shared by the client and validator models)

Modelled from the spec: the repository delegates JSON
serialisation/parsing to Python's `json` module (`json.loads` in
`validator.py`, `response.json()` in `client.py`); the code of that
module is not part of this repository.  `Json`, `jrender` and
`parseVal` model JSON text exactly per the JSON grammar (numbers
restricted to integers; the compact, whitespace-free serialisation). -/

inductive Json where
  | null
  | bool (b : Bool)
  | num (n : Int)
  | str (s : String)
  | arr (elems : List Json)
  | obj (members : List (String × Json))

/-- One digit character. -/
def digitCh (d : Nat) : Char :=
  if d = 0 then '0' else if d = 1 then '1' else if d = 2 then '2'
  else if d = 3 then '3' else if d = 4 then '4' else if d = 5 then '5'
  else if d = 6 then '6' else if d = 7 then '7' else if d = 8 then '8' else '9'

/-- Decimal digits of a natural number, most significant first
(structural recursion on an explicit budget of at least one unit per
decimal digit, so that the kernel can evaluate it). -/
def natCharsGo : Nat → Nat → List Char
  | 0, _ => []
  | fuel + 1, n =>
    if n < 10 then [digitCh n]
    else natCharsGo fuel (n / 10) ++ [digitCh (n % 10)]

/-- Decimal digits of a natural number. -/
def natChars (n : Nat) : List Char := natCharsGo (n + 1) n

/-- Decimal rendering of an integer. -/
def intChars : Int → List Char
  | .ofNat m => natChars m
  | .negSucc m => '-' :: natChars (m + 1)

/-- One lower-case hex digit character. -/
def hexCh (d : Nat) : Char :=
  if d < 10 then digitCh d
  else if d = 10 then 'a' else if d = 11 then 'b' else if d = 12 then 'c'
  else if d = 13 then 'd' else if d = 14 then 'e' else 'f'

/-- JSON string escaping of one character: `"` and `\` and the five
named control escapes use two-character escapes, other control
characters use `\u00XX`, everything else is verbatim. -/
def escJsonChar (c : Char) : List Char :=
  if c = '"' then ['\\', '"']
  else if c = '\\' then ['\\', '\\']
  else if c = '\n' then ['\\', 'n']
  else if c = '\t' then ['\\', 't']
  else if c = '\r' then ['\\', 'r']
  else if c = '\x08' then ['\\', 'b']
  else if c = '\x0c' then ['\\', 'f']
  else if c.toNat < 32 then
    ['\\', 'u', '0', '0', hexCh (c.toNat / 16), hexCh (c.toNat % 16)]
  else [c]

/-- JSON string-body escaping. -/
def escJson (cs : List Char) : List Char :=
  cs.foldr (fun c r => escJsonChar c ++ r) []

mutual

/-- Compact JSON rendering. -/
def jrender : Json → List Char
  | .num n => intChars n
  | .str s => '"' :: (escJson s.data ++ ['"'])
  | .bool false => ['f', 'a', 'l', 's', 'e']
  | .bool true => ['t', 'r', 'u', 'e']
  | .null => ['n', 'u', 'l', 'l']
  | .arr vs => '[' :: (jrenderElems vs ++ [']'])
  | .obj ms => '\x7b' :: (jrenderMembers ms ++ ['\x7d'])

/-- Comma-separated rendering of array elements. -/
def jrenderElems : List Json → List Char
  | [] => []
  | [v] => jrender v
  | v :: w :: ws => jrender v ++ ',' :: jrenderElems (w :: ws)

/-- Comma-separated rendering of object members. -/
def jrenderMembers : List (String × Json) → List Char
  | [] => []
  | [(k, v)] => '"' :: (escJson k.data ++ '"' :: ':' :: jrender v)
  | (k, v) :: w :: ws =>
      ('"' :: (escJson k.data ++ '"' :: ':' :: jrender v)) ++ ',' :: jrenderMembers (w :: ws)

end

/-- Decode one two-character JSON escape. -/
def decodeEsc (e : Char) : Option Char :=
  if e = '"' then some '"'
  else if e = '\\' then some '\\'
  else if e = '/' then some '/'
  else if e = 'b' then some '\x08'
  else if e = 'f' then some '\x0c'
  else if e = 'n' then some '\n'
  else if e = 'r' then some '\r'
  else if e = 't' then some '\t'
  else none

/-- Numeric value of a hex digit. -/
def hexVal (c : Char) : Option Nat :=
  if '0' ≤ c && c ≤ '9' then some (c.toNat - 48)
  else if 'a' ≤ c && c ≤ 'f' then some (c.toNat - 87)
  else if 'A' ≤ c && c ≤ 'F' then some (c.toNat - 55)
  else none

/-- Scan a JSON string body (after the opening quote) up to the closing
quote, decoding escapes; returns the decoded characters and the rest of
the input.  Structural recursion on an explicit budget of at least one
unit per consumed character. -/
def scanStrGo : Nat → List Char → Option (List Char × List Char)
  | 0, _ => none
  | _ + 1, [] => none
  | n + 1, c :: rest =>
    if c = '"' then some ([], rest)
    else if c = '\\' then
      match rest with
      | [] => none
      | e :: r2 =>
        if e = 'u' then
          match r2 with
          | h1 :: h2 :: h3 :: h4 :: r3 =>
            match hexVal h1, hexVal h2, hexVal h3, hexVal h4 with
            | some a, some b, some c1, some d =>
              (scanStrGo n r3).map
                (fun p => (Char.ofNat (((a * 16 + b) * 16 + c1) * 16 + d) :: p.1, p.2))
            | _, _, _, _ => none
          | _ => none
        else
          match decodeEsc e with
          | some d => (scanStrGo n r2).map (fun p => (d :: p.1, p.2))
          | none => none
    else (scanStrGo n rest).map (fun p => (c :: p.1, p.2))

/-- Scan a JSON string body with a sufficient budget. -/
def scanStr (cs : List Char) : Option (List Char × List Char) :=
  scanStrGo (cs.length + 1) cs

/-- Parse a decimal natural-number token. -/
def parseNatTok (cs : List Char) : Option (Nat × List Char) :=
  let ds := cs.takeWhile isDigitCh
  if ds.isEmpty then none
  else some (ds.foldl (fun a c => 10 * a + (c.toNat - 48)) 0, cs.dropWhile isDigitCh)

/-- Parse a decimal integer token. -/
def parseIntTok (cs : List Char) : Option (Int × List Char) :=
  match cs with
  | [] => none
  | c :: r =>
    if c = '-' then (parseNatTok r).map (fun p => (-(p.1 : Int), p.2))
    else (parseNatTok (c :: r)).map (fun p => ((p.1 : Int), p.2))

/-- Consume an expected literal. -/
def dropLit : List Char → List Char → Option (List Char)
  | [], cs => some cs
  | l :: ls, c :: cs => if l = c then dropLit ls cs else none
  | _ :: _, [] => none

/-- The whitespace `json.loads` skips between tokens (space, tab,
newline, carriage return). -/
def isJsonWs (c : Char) : Bool :=
  c.toNat = 32 || c.toNat = 9 || c.toNat = 10 || c.toNat = 13

/-- Skip inter-token whitespace. -/
def skipWs (cs : List Char) : List Char := cs.dropWhile isJsonWs

mutual

/-- Parse one JSON value (the `Nat` is a recursion budget, one unit per
recursive call). -/
def parseVal : Nat → List Char → Option (Json × List Char)
  | 0, _ => none
  | n + 1, cs =>
    match skipWs cs with
    | [] => none
    | c :: rest =>
      if c = 'n' then (dropLit ['u', 'l', 'l'] rest).map (fun r => (.null, r))
      else if c = 't' then (dropLit ['r', 'u', 'e'] rest).map (fun r => (.bool true, r))
      else if c = 'f' then (dropLit ['a', 'l', 's', 'e'] rest).map (fun r => (.bool false, r))
      else if c = '"' then (scanStr rest).map (fun p => (.str ⟨p.1⟩, p.2))
      else if c = '[' then
        match skipWs rest with
        | ']' :: r2 => some (.arr [], r2)
        | r => (parseElems n r).map (fun p => (.arr p.1, p.2))
      else if c = '\x7b' then
        match skipWs rest with
        | '\x7d' :: r2 => some (.obj [], r2)
        | r => (parseMembers n r).map (fun p => (.obj p.1, p.2))
      else (parseIntTok (c :: rest)).map (fun p => (.num p.1, p.2))

/-- Parse the comma-separated elements of a non-empty array together
with the closing bracket. -/
def parseElems : Nat → List Char → Option (List Json × List Char)
  | 0, _ => none
  | n + 1, cs =>
    match parseVal n cs with
    | none => none
    | some (v, r1) =>
      match skipWs r1 with
      | ',' :: r2 => (parseElems n r2).map (fun p => (v :: p.1, p.2))
      | ']' :: r2 => some ([v], r2)
      | _ => none

/-- Parse the members of a non-empty object together with the closing
brace. -/
def parseMembers : Nat → List Char → Option (List (String × Json) × List Char)
  | 0, _ => none
  | n + 1, cs =>
    match skipWs cs with
    | '"' :: r0 =>
      (match scanStr r0 with
       | none => none
       | some (k, r1) =>
         match skipWs r1 with
         | ':' :: r2 =>
           (match parseVal n r2 with
            | none => none
            | some (v, r3) =>
              match skipWs r3 with
              | ',' :: r4 => (parseMembers n r4).map (fun p => ((⟨k⟩, v) :: p.1, p.2))
              | '\x7d' :: r4 => some ([(⟨k⟩, v)], r4)
              | _ => none)
         | _ => none)
    | _ => none

end

/-- `json.loads` model: parse a complete JSON document with surrounding
whitespace allowed (Modelled from the spec: strict JSON parse with no
markdown stripping or extraction). -/
def jsonParseText (s : String) : Except String Json :=
  match parseVal (s.length + 1) s.data with
  | none => .error "Expecting value"
  | some (j, rest) => if (skipWs rest).isEmpty then .ok j else .error "Extra data"

/-! ## Inference client model (`structured_llm/client.py`) -/

/-- The sampling-parameter defaults of client.py lines 40-44 (the floats
`0.0`/`1.0` are exactly representable and modelled as integers). -/
def basePayload (prompt grammar : String) (temperature maxTokens : Int) : List (String × Json) :=
  [("prompt", .str prompt), ("grammar", .str grammar),
   ("temperature", .num temperature), ("n_predict", .num maxTokens),
   ("top_p", .num 1), ("top_k", .num 1), ("repeat_penalty", .num 1),
   ("stream", .bool false)]

/-- Python `dict.update`: existing keys are overwritten in place, new
keys are appended in the update's order. -/
def pyDictUpdate (d e : List (String × Json)) : List (String × Json) :=
  d.map (fun p => match e.lookup p.1 with | some v => (p.1, v) | none => p) ++
    e.filter (fun q => !(d.any (fun p => p.1 == q.1)))

/-- The request body `complete` sends to `{serverURL}/completion`
(client.py lines 107-119): the fixed defaults overlaid with
`extra_params`. -/
def completionPayload (prompt grammar : String) (temperature maxTokens : Int)
    (extraParams : List (String × Json)) : List (String × Json) :=
  pyDictUpdate (basePayload prompt grammar temperature maxTokens) extraParams

/-- Outcome of the single `self._http.post` call.  `timeout` carries the
text of the raised `httpx.TimeoutException`; since `TimeoutException`
subclasses `httpx.TransportError`, it is caught by the
`except httpx.TransportError` clause of client.py line 126 — the
dedicated timeout handler at line 132 is unreachable. -/
inductive PostOutcome where
  | transportError (msg : String)
  | timeout (msg : String)
  | response (status : Nat) (body : String)

/-- Result of `complete`: the returned `content` value, a raised
`LlamaCppClientError` (with its optional `status_code`), or an escaped
Python `TypeError` (raised by `in` / indexing on a non-dict body). -/
inductive CompleteResult where
  | ok (content : Json)
  | clientError (msg : String) (statusCode : Option Nat)
  | pyTypeError (msg : String)

/-- `startsWithSeq pat cs`: `cs` starts with `pat`. -/
def startsWithSeq : List Char → List Char → Bool
  | [], _ => true
  | _ :: _, [] => false
  | p :: ps, c :: cs => p == c && startsWithSeq ps cs

/-- Substring test (Python `needle in haystack` on `str`). -/
def containsSeq (pat : List Char) : List Char → Bool
  | [] => pat.isEmpty
  | c :: cs => startsWithSeq pat (c :: cs) || containsSeq pat cs

/-- Python `key in list` on a decoded JSON array: equality against each
element (a non-string element never equals a string key). -/
def pyInList (key : String) (es : List Json) : Bool :=
  es.any (fun e => match e with | .str s => s == key | _ => false)

/-- Python `"content" not in data` on a decoded JSON value: key test for
dicts, element membership for lists, substring test for strings, and a
`TypeError` (whose message names the operand's type) for the
non-iterable types. -/
def pyNotContains (data : Json) (key : String) : Except String Bool :=
  match data with
  | .obj ms => .ok (!(ms.any (fun p => p.1 == key)))
  | .arr es => .ok (!(pyInList key es))
  | .str s => .ok (!(containsSeq key.data s.data))
  | .num _ => .error "argument of type 'int' is not iterable"
  | .bool _ => .error "argument of type 'bool' is not iterable"
  | .null => .error "argument of type 'NoneType' is not iterable"

/-- Python `data["content"]` on a decoded JSON value. -/
def pyIndex (data : Json) (key : String) : Except String Json :=
  match data with
  | .obj ms =>
    match ms.lookup key with
    | some v => .ok v
    | none => .error "KeyError"
  | .str _ => .error "string indices must be integers"
  | .arr _ => .error "list indices must be integers or slices, not str"
  | _ => .error "object is not subscriptable"

/-- Python `s[:n]`. -/
def takeStr (n : Nat) (s : String) : String := ⟨s.data.take n⟩

/-- `LlamaCppClient.complete` (client.py lines 70-159), as a function of
the outcome of its single HTTP POST: transport failures and timeouts
(both caught by the line-126 `except httpx.TransportError`, since
`httpx.TimeoutException` subclasses it, so the line-132 timeout handler
and its message are dead code), non-200 statuses (with status code and
body truncated to 500 characters), non-JSON 200 bodies and 200 bodies
whose decoded JSON lacks a `content` member all map to
`LlamaCppClientError`; the `"content" not in data` test and the
`data["content"]` lookup use Python `in`/indexing semantics, so
non-iterable bodies raise `TypeError` there.  No second POST exists on
any path. -/
def complete (serverUrl : String) (_timeoutS : Int) (outcome : PostOutcome) : CompleteResult :=
  match outcome with
  | .transportError exc =>
      .clientError ("Cannot connect to llama.cpp server at " ++ serverUrl ++ ": " ++ exc ++
        "\nIs the server running?  Start it with: llama-server -m <model_path> --port 8080") none
  | .timeout exc =>
      .clientError ("Cannot connect to llama.cpp server at " ++ serverUrl ++ ": " ++ exc ++
        "\nIs the server running?  Start it with: llama-server -m <model_path> --port 8080") none
  | .response status body =>
    if status ≠ 200 then
      .clientError ("llama.cpp server returned HTTP " ++ toString status ++ ": " ++
        takeStr 500 body) (some status)
    else
      match jsonParseText body with
      | .error _ =>
          .clientError ("llama.cpp server returned non-JSON response: " ++ takeStr 200 body) none
      | .ok data =>
        match pyNotContains data "content" with
        | .error t => .pyTypeError t
        | .ok true => .clientError "llama.cpp response missing 'content' field" none
        | .ok false =>
          match pyIndex data "content" with
          | .error t => .pyTypeError t
          | .ok v => .ok v

/-! ## Output validator model (`structured_llm/validator.py`) -/

/-- Python `str.strip()` over ASCII whitespace. -/
def isPyWs (c : Char) : Bool := c = ' ' || c = '\t' || c = '\n' || c = '\r'

def pyStrip (s : String) : String :=
  ⟨((s.data.dropWhile isPyWs).reverse.dropWhile isPyWs).reverse⟩

/-- The two failure shapes of `OutputValidator.validate`: a JSON parse
failure (carrying the parse error and the first 500 characters of the
raw text, validator.py line 68) or a Pydantic validation failure. -/
inductive VErr where
  | jsonParseFail (parseError : String) (rawPfx : List Char)
  | modelValidateFail (modelName : String) (errs : String)

/-- `OutputValidator.validate` (validator.py lines 39-89), parameterised
by the target model's `model_validate` (Modelled from the spec: Pydantic
validation is library code; it coerces a parsed JSON value into the
typed model or fails with field errors).  Step 1 strips and parses the
raw text — with no markdown stripping or extraction — and step 2 runs
model validation; each failure is terminal. -/
def validate {α : Type} (rawText : String) (modelName : String)
    (modelValidate : Json → Except String α) : Except VErr α :=
  match jsonParseText (pyStrip rawText) with
  | .error e => .error (.jsonParseFail e (rawText.data.take 500))
  | .ok data =>
    match modelValidate data with
    | .error errs => .error (.modelValidateFail modelName errs)
    | .ok inst => .ok inst

/-- The spec §8 example schema `{Title: string|null, DateOrder: string}`
as a typed model. -/
structure Event where
  title : Option String
  dateOrder : String
deriving Repr, DecidableEq

/-- Serialisation of an `Event` to a JSON value (Modelled from the spec:
Pydantic's `model_dump` for this schema). -/
def encodeEvent (v : Event) : Json :=
  .obj [("Title", match v.title with | some t => .str t | none => .null),
        ("DateOrder", .str v.dateOrder)]

/-- `model_validate` for `Event` (Modelled from the spec: field
presence/type checks with `Title` nullable). -/
def eventModelValidate : Json → Except String Event
  | .obj ms =>
    (match ms.lookup "Title", ms.lookup "DateOrder" with
     | some tv, some (.str d) =>
       (match tv with
        | .null => .ok { title := none, dateOrder := d }
        | .str t => .ok { title := some t, dateOrder := d }
        | _ => .error "Title: Input should be a valid string")
     | _, _ => .error "Field required")
  | _ => .error "Input should be a valid dictionary"

/-- Modelled from the spec: the JSON-quoted token of a string value —
`"` + the JSON-escaped characters + `"` (used to compare the emitted
grammar literals against the spec's exact-JSON-escaping requirement). -/
def jsonQuoteSpec (v : String) : List Char :=
  '"' :: (escJson v.data ++ ['"'])

/-! ## Measures and helpers for the adequacy proofs -/

mutual

/-- Recursion depth needed by `parseVal` (independent of numeric
magnitude and string length, which the parser consumes without
recursion budget). -/
def jdepth : Json → Nat
  | .null => 1
  | .bool _ => 1
  | .num _ => 1
  | .str _ => 1
  | .arr vs => 1 + jdepthElems vs
  | .obj ms => 1 + jdepthMembers ms

def jdepthElems : List Json → Nat
  | [] => 0
  | v :: vs => 1 + jdepth v + jdepthElems vs

def jdepthMembers : List (String × Json) → Nat
  | [] => 0
  | (_, v) :: ms => 1 + jdepth v + jdepthMembers ms

end

/-- The characters that may legally follow a rendered JSON value inside a
document (or its end); rules out the digit-extension ambiguity of number
tokens. -/
def isDelim : List Char → Bool
  | [] => true
  | c :: _ => c = ',' || c = ']' || c = '\x7d'

/-- `"key":value` text of one instance field. -/
def pairTxt (key : String) (w : List Char) : List Char :=
  '"' :: (key.data ++ '"' :: ':' :: w)

/-- `,"key":value` texts of the second and later instance fields. -/
def commaJoin (pairs : List (String × List Char)) : List Char :=
  (pairs.map (fun p => ',' :: pairTxt p.1 p.2)).flatten

/-- The JSON-object instance text with exactly the given fields and
values, in the given order, with no inter-token whitespace. -/
def instanceTxt : List (String × List Char) → List Char
  | [] => ['\x7b', '\x7d']
  | p :: rest => '\x7b' :: ((pairTxt p.1 p.2 ++ commaJoin rest) ++ ['\x7d'])

/-- Keys of the compile context. -/
def keysOf (ctx : Ctx) : List String := ctx.map Prod.fst

/-- Number of `$defs` entries whose (sanitised) rule name has not yet
been reserved in the compile context — the quantity the placeholder
insertion of `_resolve_ref` strictly decreases. -/
def remainingDefs (dfs : Defs) (ctx : Ctx) : Nat :=
  (dfs.filter (fun d => !((keysOf ctx).contains (ruleNameForModel d.1)))).length

/-- A directly self-referential model — `class Node(BaseModel)` with a
field `next: Node | None` — as its `model_json_schema()` result: the
root is a `$ref` into `$defs` and the definition body refers back to
itself. -/
def nodeModel : PyModel :=
  { name := "Node",
    jsonSchema := .ok {
      root := .ref "#/$defs/Node",
      defs := [("Node",
        .object [("next", .anyOf [.ref "#/$defs/Node", .nullT])] ["next"])] } }

/-! # Theorems -/

/-! ## Payload construction (client.py lines 107-119) -/

theorem lookup_cons_ne_aux {β : Type} {k a : String} (h : k ≠ a) {v : β} {l : List (String × β)} :
    List.lookup k ((a, v) :: l) = List.lookup k l := by
  simp [List.lookup_cons, beq_eq_false_iff_ne.mpr h]

theorem lookup_map_override (e : List (String × Json)) :
    ∀ (d : List (String × Json)) (k : String),
      (d.map (fun p => match e.lookup p.1 with | some v => (p.1, v) | none => p)).lookup k
        = match d.lookup k with
          | some w => some ((e.lookup k).getD w)
          | none => none := by
  intro d
  induction d with
  | nil => intro k; simp
  | cons hd tl ih =>
    intro k
    obtain ⟨k₀, v₀⟩ := hd
    by_cases hk : k = k₀
    · subst hk
      cases he : e.lookup k <;> simp [List.lookup_cons, he]
    · cases he : e.lookup k₀ <;>
        simp [he, List.lookup_cons, beq_eq_false_iff_ne.mpr hk, ih k]

theorem any_key_eq_false_of_lookup_none {β : Type} :
    ∀ (d : List (String × β)) (k : String), d.lookup k = none →
      d.any (fun p => p.1 == k) = false := by
  intro d
  induction d with
  | nil => intro k _; simp
  | cons hd tl ih =>
    intro k h
    obtain ⟨k₀, v₀⟩ := hd
    by_cases hk : k = k₀
    · subst hk; simp [List.lookup_cons] at h
    · rw [lookup_cons_ne_aux hk] at h
      simp [List.any_cons, ih k h, beq_eq_false_iff_ne.mpr (Ne.symm hk)]

theorem lookup_filter_of_lookup_none (d : List (String × Json)) (k : String)
    (hd : d.lookup k = none) :
    ∀ (e : List (String × Json)),
      (e.filter (fun q => !(d.any (fun p => p.1 == q.1)))).lookup k = e.lookup k := by
  intro e
  induction e with
  | nil => simp
  | cons q tl ih =>
    obtain ⟨kq, vq⟩ := q
    by_cases hq : kq = k
    · subst hq
      have : (d.any (fun p => p.1 == kq)) = false := any_key_eq_false_of_lookup_none d kq hd
      simp [List.filter_cons, this, List.lookup_cons]
    · by_cases hp : (d.any (fun p => p.1 == kq)) = true
      · simp [List.filter_cons, hp, lookup_cons_ne_aux (Ne.symm hq), ih]
      · simp only [Bool.not_eq_true] at hp
        simp [List.filter_cons, hp, lookup_cons_ne_aux (Ne.symm hq), ih]

theorem lookup_pyDictUpdate (d e : List (String × Json)) (k : String) :
    (pyDictUpdate d e).lookup k = (e.lookup k).or (d.lookup k) := by
  unfold pyDictUpdate
  rw [List.lookup_append, lookup_map_override]
  cases hd : d.lookup k with
  | some w => cases he : e.lookup k <;> simp [he, Option.or]
  | none =>
    rw [lookup_filter_of_lookup_none d k hd]
    cases he : e.lookup k <;> simp [Option.or]

/-- **C8**: the request body built by `complete` carries the fixed
deterministic sampling defaults — `temperature 0`, `top_p 1.0`,
`top_k 1`, `repeat_penalty 1.0`, `stream false` — together with the
prompt, grammar and token budget `n_predict`, and every key supplied
in `extra_params` overrides the corresponding entry of the body, while
keys not supplied are left at their defaults. -/
theorem completion_payload_defaults_and_overrides :
    (∀ p g mt,
      (completionPayload p g 0 mt []).lookup "temperature" = some (.num 0) ∧
      (completionPayload p g 0 mt []).lookup "top_p" = some (.num 1) ∧
      (completionPayload p g 0 mt []).lookup "top_k" = some (.num 1) ∧
      (completionPayload p g 0 mt []).lookup "repeat_penalty" = some (.num 1) ∧
      (completionPayload p g 0 mt []).lookup "stream" = some (.bool false) ∧
      (completionPayload p g 0 mt []).lookup "prompt" = some (.str p) ∧
      (completionPayload p g 0 mt []).lookup "grammar" = some (.str g) ∧
      (completionPayload p g 0 mt []).lookup "n_predict" = some (.num mt)) ∧
    (∀ p g t mt extra k v, extra.lookup k = some v →
      (completionPayload p g t mt extra).lookup k = some v) ∧
    (∀ p g t mt extra k, extra.lookup k = none →
      (completionPayload p g t mt extra).lookup k = (basePayload p g t mt).lookup k) := by
  refine ⟨?_, ?_, ?_⟩
  · exact fun p g mt => ⟨rfl, rfl, rfl, rfl, rfl, rfl, rfl, rfl⟩
  · intro p g t mt extra k v h
    rw [completionPayload, lookup_pyDictUpdate, h]; rfl
  · intro p g t mt extra k h
    rw [completionPayload, lookup_pyDictUpdate, h]; rfl

theorem completion_payload_defaults_and_overrides_witness :
    ([("seed", Json.num 7)].lookup "seed" = some (Json.num 7)) ∧
    (completionPayload "P" "G" 0 256 [("seed", .num 7)]).lookup "seed" = some (.num 7) :=
  ⟨rfl, completion_payload_defaults_and_overrides.2.1 "P" "G" 0 256 _ "seed" _ rfl⟩

/-- **C10** (implicit): because `payload.update(extra_params)` is applied
to the whole request body, the keys `prompt` and `grammar` themselves can
be overridden, so for some `extra_params` the request carries a prompt
and grammar different from the arguments of `complete`. -/
theorem extra_params_override_request_fields :
    (completionPayload "PROMPT-A" "G0" 0 2048
        [("prompt", .str "PROMPT-B"), ("grammar", .str "G1")]).lookup "prompt"
      = some (.str "PROMPT-B") ∧
    (completionPayload "PROMPT-A" "G0" 0 2048
        [("prompt", .str "PROMPT-B"), ("grammar", .str "G1")]).lookup "grammar"
      = some (.str "G1") ∧
    Json.str "PROMPT-B" ≠ Json.str "PROMPT-A" ∧
    Json.str "G1" ≠ Json.str "G0" := by
  refine ⟨rfl, rfl, ?_, ?_⟩ <;> (intro h; injection h with h2; exact absurd h2 (by decide))

/-! ## Validator error path (validator.py lines 59-71) -/

/-- **C9**: raw text that does not parse as JSON — including
markdown-fenced or noisy text, for which the validator performs no
stripping or extraction — makes `validate` raise `ValidationError`
carrying the parse error and a prefix of the raw text bounded by its
first 500 characters; no value is returned and no retry occurs. -/
theorem validate_invalid_json_error :
    ∀ {α : Type} (raw : String) (mn : String) (mv : Json → Except String α) (e : String),
      jsonParseText (pyStrip raw) = .error e →
      validate raw mn mv = .error (.jsonParseFail e (raw.data.take 500)) ∧
      (raw.data.take 500).length ≤ 500 := by
  intro α raw mn mv e h
  refine ⟨?_, ?_⟩
  · simp [validate, h]
  · rw [List.length_take]; exact min_le_left _ _

theorem validate_invalid_json_error_witness :
    validate "```json\n\x7b\x7d\n```" "Event" eventModelValidate
        = .error (.jsonParseFail "Expecting value" ("```json\n\x7b\x7d\n```".data.take 500)) ∧
    (("```json\n\x7b\x7d\n```").data.take 500).length ≤ 500 :=
  validate_invalid_json_error _ _ _ _ rfl

/-! ## Enum emission (grammar.py lines 238-252) -/

/-- **C3** (counterexample): contrary to the claim, `_enum_rule` applied
to the empty value list does not raise `GrammarGenerationError`; it
returns the empty alternation, rendered as the grammar text `"()"`. -/
theorem enum_rule_empty_returns_grammar :
    enumRule [] = .ok (.altN []) ∧ render (.altN []) = "()" ∧
    ¬ ∃ e, enumRule ([] : List JVal) = .error e := by
  refine ⟨rfl, rfl, ?_⟩
  rintro ⟨e, h⟩
  exact absurd h (by simp [enumRule, enumChoices])

/-- **C3** (amended): for every enum whose values compile, the emitted
expression is an alternation with exactly one alternative per allowed
value, in declared order (`Forall₂` pairs each value with its emitted
choice); for the empty value list no error is raised — the compiler
returns the empty alternation `"()"` instead. -/
theorem enum_rule_order_and_empty :
    (∀ vals cs, enumChoices vals = .ok cs →
      List.Forall₂ (fun v c => enumChoice v = .ok c) vals cs ∧
      enumRule vals = .ok (.altN cs)) ∧
    (enumRule [] = .ok (.altN []) ∧ render (.altN []) = "()") := by
  refine ⟨?_, rfl, rfl⟩
  intro vals
  induction vals with
  | nil =>
    intro cs h
    simp [enumChoices] at h
    subst h
    exact ⟨List.Forall₂.nil, rfl⟩
  | cons v rest ih =>
    intro cs h
    cases hc : enumChoice v with
    | error e => simp [enumChoices, hc] at h
    | ok c =>
      cases hr : enumChoices rest with
      | error e => simp [enumChoices, hc, hr] at h
      | ok cs' =>
        simp [enumChoices, hc, hr] at h
        subst h
        refine ⟨List.Forall₂.cons hc ((ih cs' hr).1), ?_⟩
        simp [enumRule, enumChoices, hc, hr]

theorem enum_rule_order_and_empty_witness :
    List.Forall₂ (fun v c => enumChoice v = .ok c) [JVal.s "a", JVal.s "b"]
      [.seqWS " " (.lit "\"") (.seqWS " " (.lit "a") (.lit "\"")),
       .seqWS " " (.lit "\"") (.seqWS " " (.lit "b") (.lit "\""))] ∧
    enumRule [JVal.s "a", JVal.s "b"] =
      .ok (.altN [.seqWS " " (.lit "\"") (.seqWS " " (.lit "a") (.lit "\"")),
                  .seqWS " " (.lit "\"") (.seqWS " " (.lit "b") (.lit "\""))]) :=
  enum_rule_order_and_empty.1 _ _ rfl

/-! ## Determinism of `generate` (grammar.py lines 95-143) -/

/-- **C4**: compilation is deterministic — `generate` resets the
per-instance state before compiling, so two calls with the same schema,
whether on the same (arbitrarily dirty) or a fresh generator state,
return identical results byte for byte; and object fields are emitted
in declared `properties` order, not in the order of the `required`
list: a schema declaring `b` before `a` but requiring `["a", "b"]`
still emits the `b` pair first. -/
theorem generate_deterministic :
    (∀ st₁ st₂ m, generate st₁ m = generate st₂ m) ∧
    (schemaToRule [] 9 (.object [("b", .str none), ("a", .integer)] ["a", "b"]) "root" []
      = .ok (reqBody (reqPair "b" (.ruleRef "string")) [reqPair "a" (.ruleRef "integer")] [], [])) := by
  exact ⟨fun st₁ st₂ m => rfl, rfl⟩

/-! ## Enum string escaping (grammar.py lines 69-74 and 238-252) -/

theorem gmatch_string_choice (env : String → Option GExpr) (v : String) :
    GMatch env (.seqWS " " (.lit "\"") (.seqWS " " (.lit v) (.lit "\"")))
      ('"' :: (v.data ++ ['"'])) := by
  have h1 : GMatch env (.lit "\"") ['"'] := GMatch.lit "\""
  have h2 : GMatch env (.lit v) v.data := GMatch.lit v
  exact GMatch.seqWS h1 (GMatch.seqWS h2 h1)

theorem escJson_cons (c : Char) (rest : List Char) :
    escJson (c :: rest) = escJsonChar c ++ escJson rest := rfl

theorem escJson_eq_self {cs : List Char}
    (h : ∀ c ∈ cs, ¬(c = '"' ∨ c = '\\' ∨ c.toNat < 32)) : escJson cs = cs := by
  induction cs with
  | nil => rfl
  | cons c rest ih =>
    have hc := h c (by simp)
    push_neg at hc
    obtain ⟨h1, h2, h3⟩ := hc
    have h3' : ¬(c.toNat < 32) := by omega
    have hn : c ≠ '\n' := fun hh => by subst hh; exact absurd h3 (by decide)
    have ht : c ≠ '\t' := fun hh => by subst hh; exact absurd h3 (by decide)
    have hr : c ≠ '\r' := fun hh => by subst hh; exact absurd h3 (by decide)
    have hb : c ≠ '\x08' := fun hh => by subst hh; exact absurd h3 (by decide)
    have hf : c ≠ '\x0c' := fun hh => by subst hh; exact absurd h3 (by decide)
    rw [escJson_cons, ih (fun x hx => h x (by simp [hx]))]
    simp [escJsonChar, h1, h2, h3', hn, ht, hr, hb, hf]

theorem escChar_eq_self {c : Char} (h1 : c ≠ '\\') (h2 : c ≠ '"') : escChar c = [c] := by
  simp [escChar, h1, h2]

theorem escGbnfList_eq_self :
    ∀ (cs : List Char), (∀ ch ∈ cs, ¬(ch = '"' ∨ ch = '\\')) →
      cs.foldr (fun c r => escChar c ++ r) [] = cs := by
  intro cs h
  induction cs with
  | nil => rfl
  | cons c rest ih =>
    have hc := h c (by simp)
    push_neg at hc
    rw [List.foldr_cons, ih (fun x hx => h x (by simp [hx])), escChar_eq_self hc.2 hc.1]
    rfl

theorem escGbnf_eq_self {v : String}
    (h : ∀ ch ∈ v.data, ¬(ch = '"' ∨ ch = '\\')) : escapeStringForGbnf v = v := by
  have hl := escGbnfList_eq_self v.data h
  unfold escapeStringForGbnf
  rw [hl]

/-- **C5** (counterexample): `_escape_string_for_gbnf` passes the
control character `\n` through unchanged, so for the enum value
`"a\nb"` the emitted grammar literal contains a raw newline: the
emitted choice accepts the text `"a\nb"` (raw newline between the
quotes), which differs from the JSON encoding of the value (JSON
requires the two-character escape `\n`); the grammar therefore does
not accept exactly the JSON encodings of the declared values. -/
theorem enum_string_escaping_counterexample :
    enumChoice (.s "a\nb")
      = .ok (.seqWS " " (.lit "\"") (.seqWS " " (.lit "a\nb") (.lit "\""))) ∧
    GMatch preambleEnv (.seqWS " " (.lit "\"") (.seqWS " " (.lit "a\nb") (.lit "\"")))
      ('"' :: ("a\nb".data ++ ['"'])) ∧
    '"' :: ("a\nb".data ++ ['"']) ≠ jsonQuoteSpec "a\nb" := by
  refine ⟨rfl, gmatch_string_choice _ _, ?_⟩
  decide

/-- **C5** (amended): the choice emitted for a string enum value `v`
accepts the raw-quoted text `"` + `v` + `"` (in every rule
environment); that text coincides with the JSON-quoted token of `v`
exactly for values free of characters that JSON requires to be escaped
(no `"`, `\` or control characters) — for those values
`_escape_string_for_gbnf` is also the identity, i.e. only `"` and `\`
ever receive a preceding backslash and control characters pass through
unescaped. -/
theorem enum_string_escaping_amended :
    ∀ (env : String → Option GExpr) (v : String) (c : GExpr),
      enumChoice (.s v) = .ok c →
      GMatch env c ('"' :: (v.data ++ ['"'])) ∧
      ((∀ ch ∈ v.data, ¬(ch = '"' ∨ ch = '\\' ∨ ch.toNat < 32)) →
        '"' :: (v.data ++ ['"']) = jsonQuoteSpec v) ∧
      ((∀ ch ∈ v.data, ¬(ch = '"' ∨ ch = '\\')) → escapeStringForGbnf v = v) := by
  intro env v c h
  have hc : (Except.ok (.seqWS " " (.lit "\"") (.seqWS " " (.lit v) (.lit "\""))) :
      Except GErr GExpr) = .ok c := h
  have hc2 : c = .seqWS " " (.lit "\"") (.seqWS " " (.lit v) (.lit "\"")) := by
    cases hc; rfl
  subst hc2
  refine ⟨gmatch_string_choice _ _, ?_, ?_⟩
  · intro hclean
    simp [jsonQuoteSpec, escJson_eq_self hclean]
  · intro hclean
    exact escGbnf_eq_self hclean

theorem enum_string_escaping_amended_witness :
    GMatch preambleEnv (.seqWS " " (.lit "\"") (.seqWS " " (.lit "abc") (.lit "\"")))
      ('"' :: ("abc".data ++ ['"'])) ∧
    '"' :: ("abc".data ++ ['"']) = jsonQuoteSpec "abc" ∧
    escapeStringForGbnf "abc" = "abc" := by
  obtain ⟨h1, h2, h3⟩ := enum_string_escaping_amended preambleEnv "abc" _ rfl
  exact ⟨h1, h2 (by decide), h3 (by decide)⟩

/-! ## Client error taxonomy (client.py lines 70-159) -/

theorem any_key_eq_true_of_lookup_some {β : Type} :
    ∀ (d : List (String × β)) (k : String) (v : β), d.lookup k = some v →
      d.any (fun p => p.1 == k) = true := by
  intro d
  induction d with
  | nil => intro k v h; simp [List.lookup] at h
  | cons hd tl ih =>
    intro k v h
    obtain ⟨k₀, v₀⟩ := hd
    by_cases hk : k = k₀
    · subst hk; simp
    · rw [lookup_cons_ne_aux hk] at h
      simp [List.any_cons, ih k v h]

/-- **C7** (counterexample): a 200 response whose JSON body is the
number `42` — a body that certainly lacks a `content` field — does not
raise the single client error kind: the membership test
`"content" not in data` applies `in` to an `int` and a `TypeError`
escapes instead, so the claimed "exactly when" taxonomy fails. -/
theorem complete_nondict_body_counterexample :
    complete "http://localhost:8080" 120 (.response 200 "42")
      = .pyTypeError "argument of type 'int' is not iterable" ∧
    (¬ ∃ m sc, complete "http://localhost:8080" 120 (.response 200 "42") = .clientError m sc) ∧
    (¬ ∃ j, complete "http://localhost:8080" 120 (.response 200 "42") = .ok j) := by
  refine ⟨rfl, ?_, ?_⟩
  · rintro ⟨m, sc, h⟩
    rw [show complete "http://localhost:8080" 120 (.response 200 "42")
          = .pyTypeError "argument of type 'int' is not iterable" from rfl] at h
    exact CompleteResult.noConfusion h
  · rintro ⟨j, h⟩
    rw [show complete "http://localhost:8080" 120 (.response 200 "42")
          = .pyTypeError "argument of type 'int' is not iterable" from rfl] at h
    exact CompleteResult.noConfusion h

/-- **C7** (amended): `complete` raises `LlamaCppClientError` exactly on
transport failure, timeout (routed through the line-126
`httpx.TransportError` handler — `httpx.TimeoutException` subclasses it,
so the timeout carries the "Cannot connect" message and the line-132
handler is dead code), non-200 status (the error carrying the status
code and the body truncated to 500 characters), a 200 body that is not
JSON, or a 200 body decoding to a JSON object, array or string lacking a
`content` key/element/substring (Python `in` works on all three); an
object body's `content` value is returned unchanged.  A 200 body
decoding to a non-iterable JSON value (number, boolean, `null`) escapes
as a Python `TypeError` from the `in` test, and an array or string body
that *passes* the `in` test escapes as a `TypeError` from the
`data["content"]` indexing.  No retry exists: the result is a function
of the single POST outcome. -/
theorem complete_error_taxonomy :
    (∀ url t msg, complete url t (.transportError msg)
        = .clientError ("Cannot connect to llama.cpp server at " ++ url ++ ": " ++ msg ++
            "\nIs the server running?  Start it with: llama-server -m <model_path> --port 8080")
            none) ∧
    (∀ url t msg, complete url t (.timeout msg)
        = .clientError ("Cannot connect to llama.cpp server at " ++ url ++ ": " ++ msg ++
            "\nIs the server running?  Start it with: llama-server -m <model_path> --port 8080")
            none) ∧
    (∀ url t st body, st ≠ 200 → complete url t (.response st body)
        = .clientError ("llama.cpp server returned HTTP " ++ toString st ++ ": " ++
            takeStr 500 body) (some st)) ∧
    (∀ url t body e, jsonParseText body = .error e → complete url t (.response 200 body)
        = .clientError ("llama.cpp server returned non-JSON response: " ++ takeStr 200 body)
            none) ∧
    (∀ url t body ms, jsonParseText body = .ok (.obj ms) → ms.lookup "content" = none →
        complete url t (.response 200 body)
          = .clientError "llama.cpp response missing 'content' field" none) ∧
    (∀ url t body ms v, jsonParseText body = .ok (.obj ms) → ms.lookup "content" = some v →
        complete url t (.response 200 body) = .ok v) ∧
    (∀ url t body n, jsonParseText body = .ok (.num n) →
        complete url t (.response 200 body)
          = .pyTypeError "argument of type 'int' is not iterable") ∧
    (∀ url t body es, jsonParseText body = .ok (.arr es) →
        pyInList "content" es = false →
        complete url t (.response 200 body)
          = .clientError "llama.cpp response missing 'content' field" none) ∧
    (∀ url t body s, jsonParseText body = .ok (.str s) →
        containsSeq "content".data s.data = false →
        complete url t (.response 200 body)
          = .clientError "llama.cpp response missing 'content' field" none) ∧
    (∀ url t body es, jsonParseText body = .ok (.arr es) →
        pyInList "content" es = true →
        complete url t (.response 200 body)
          = .pyTypeError "list indices must be integers or slices, not str") ∧
    (∀ url t body s, jsonParseText body = .ok (.str s) →
        containsSeq "content".data s.data = true →
        complete url t (.response 200 body)
          = .pyTypeError "string indices must be integers") := by
  refine ⟨fun url t msg => rfl, fun url t msg => rfl, ?_, ?_, ?_, ?_, ?_, ?_, ?_, ?_, ?_⟩
  · intro url t st body h
    simp [complete, h]
  · intro url t body e h
    simp [complete, h]
  · intro url t body ms h h2
    simp [complete, h, pyNotContains, any_key_eq_false_of_lookup_none ms "content" h2]
  · intro url t body ms v h h2
    simp [complete, h, pyNotContains, any_key_eq_true_of_lookup_some ms "content" v h2,
      pyIndex, h2]
  · intro url t body n h
    simp [complete, h, pyNotContains]
  · intro url t body es h h2
    simp [complete, h, pyNotContains, h2]
  · intro url t body s h h2
    simp [complete, h, pyNotContains, h2]
  · intro url t body es h h2
    simp [complete, h, pyNotContains, h2, pyIndex]
  · intro url t body s h h2
    simp [complete, h, pyNotContains, h2, pyIndex]

theorem complete_error_taxonomy_witness :
    complete "http://x" 120 (.response 200 "\x7b\"content\":\"hi\"\x7d") = .ok (.str "hi") ∧
    complete "http://x" 120 (.response 500 "boom")
      = .clientError ("llama.cpp server returned HTTP " ++ toString 500 ++ ": " ++
          takeStr 500 "boom") (some 500) ∧
    complete "http://x" 120 (.response 200 "not json")
      = .clientError ("llama.cpp server returned non-JSON response: " ++ takeStr 200 "not json")
          none ∧
    complete "http://x" 120 (.response 200 "\x7b\"a\":1\x7d")
      = .clientError "llama.cpp response missing 'content' field" none ∧
    complete "http://x" 120 (.response 200 "[\"x\"]")
      = .clientError "llama.cpp response missing 'content' field" none ∧
    complete "http://x" 120 (.response 200 "\"has content inside\"")
      = .pyTypeError "string indices must be integers" := by
  refine ⟨?_, ?_, ?_, ?_, ?_, ?_⟩
  · exact complete_error_taxonomy.2.2.2.2.2.1 "http://x" 120 _
      [("content", .str "hi")] (.str "hi") (by rfl) rfl
  · exact complete_error_taxonomy.2.2.1 "http://x" 120 500 "boom" (by decide)
  · exact complete_error_taxonomy.2.2.2.1 "http://x" 120 "not json" "Expecting value" (by rfl)
  · exact complete_error_taxonomy.2.2.2.2.1 "http://x" 120 _ [("a", .num 1)] (by rfl) rfl
  · exact complete_error_taxonomy.2.2.2.2.2.2.2.1 "http://x" 120 "[\"x\"]" [.str "x"]
      (by rfl) (by rfl)
  · exact complete_error_taxonomy.2.2.2.2.2.2.2.2.2.2 "http://x" 120 "\"has content inside\""
      "has content inside" (by rfl) (by rfl)

/-! ## JSON parse/render roundtrip (for the validator roundtrip claim) -/

theorem digitCh_toNat {d : Nat} (h : d < 10) : (digitCh d).toNat = 48 + d := by
  interval_cases d <;> decide

theorem hexCh_hexVal {d : Nat} (h : d < 16) : hexVal (hexCh d) = some d := by
  interval_cases d <;> decide

theorem isDigitCh_digitCh {d : Nat} (h : d < 10) : isDigitCh (digitCh d) = true := by
  interval_cases d <;> decide

theorem natCharsGo_head {fuel n : Nat} (h : n < fuel) :
    ∃ d t, d < 10 ∧ natCharsGo fuel n = digitCh d :: t := by
  induction fuel generalizing n with
  | zero => omega
  | succ f ih =>
    by_cases h10 : n < 10
    · exact ⟨n, [], h10, by simp [natCharsGo, h10]⟩
    · have hd : n / 10 < f := by omega
      obtain ⟨d, t, hd10, ht⟩ := ih hd
      exact ⟨d, t ++ [digitCh (n % 10)], hd10, by simp [natCharsGo, h10, ht]⟩

theorem natChars_ne_nil (n : Nat) : natChars n ≠ [] := by
  obtain ⟨d, t, _, ht⟩ := natCharsGo_head (show n < n + 1 by omega)
  simp [natChars, ht]

theorem natCharsGo_all_digits {fuel n : Nat} (h : n < fuel) :
    ∀ c ∈ natCharsGo fuel n, isDigitCh c = true := by
  induction fuel generalizing n with
  | zero => omega
  | succ f ih =>
    by_cases h10 : n < 10
    · simp [natCharsGo, h10, isDigitCh_digitCh h10]
    · have hd : n / 10 < f := by omega
      intro c hc
      simp [natCharsGo, h10] at hc
      rcases hc with hc | hc
      · exact ih hd c hc
      · subst hc; exact isDigitCh_digitCh (by omega)

theorem natCharsGo_foldl {fuel n : Nat} (h : n < fuel) :
    ∀ acc : Nat,
      (natCharsGo fuel n).foldl (fun a c => 10 * a + (c.toNat - 48)) acc
        = acc * 10 ^ (natCharsGo fuel n).length + n := by
  induction fuel generalizing n with
  | zero => omega
  | succ f ih =>
    intro acc
    by_cases h10 : n < 10
    · simp [natCharsGo, h10, digitCh_toNat h10]
      omega
    · have hd : n / 10 < f := by omega
      simp only [natCharsGo, if_neg h10, List.foldl_append, List.length_append,
        List.foldl_cons, List.foldl_nil, List.length_cons, List.length_nil]
      rw [ih hd acc, digitCh_toNat (show n % 10 < 10 by omega)]
      rw [pow_succ, ← mul_assoc]
      set M := acc * 10 ^ (natCharsGo f (n / 10)).length with hM
      omega

theorem natChars_foldl (n : Nat) :
    (natChars n).foldl (fun a c => 10 * a + (c.toNat - 48)) 0 = n := by
  unfold natChars
  rw [natCharsGo_foldl (show n < n + 1 by omega) 0]
  simp

theorem takeWhile_append_of_all {p : Char → Bool} :
    ∀ {l₁ : List Char} (l₂ : List Char), (∀ c ∈ l₁, p c = true) →
      (l₁ ++ l₂).takeWhile p = l₁ ++ l₂.takeWhile p ∧
      (l₁ ++ l₂).dropWhile p = l₂.dropWhile p := by
  intro l₁
  induction l₁ with
  | nil => intro l₂ _; simp
  | cons c t ih =>
    intro l₂ h
    have hc : p c = true := h c (by simp)
    have := ih l₂ (fun x hx => h x (by simp [hx]))
    simp [List.takeWhile_cons, List.dropWhile_cons, hc, this.1, this.2]

theorem isDelim_not_digit {rest : List Char} (h : isDelim rest = true) :
    rest.takeWhile isDigitCh = [] ∧ rest.dropWhile isDigitCh = rest := by
  cases rest with
  | nil => simp
  | cons c t =>
    simp [isDelim] at h
    have hc : isDigitCh c = false := by
      rcases h with (h | h) | h <;> (subst h; decide)
    simp [List.takeWhile_cons, List.dropWhile_cons, hc]

theorem parseNatTok_natChars (n : Nat) {rest : List Char} (hd : isDelim rest = true) :
    parseNatTok (natChars n ++ rest) = some (n, rest) := by
  obtain ⟨ht, hdw⟩ := isDelim_not_digit hd
  have hall : ∀ c ∈ natChars n, isDigitCh c = true :=
    natCharsGo_all_digits (show n < n + 1 by omega)
  obtain ⟨htw, hdw2⟩ := takeWhile_append_of_all rest hall
  have hne : (natChars n).isEmpty = false := by
    cases hnc : natChars n with
    | nil => exact absurd hnc (natChars_ne_nil n)
    | cons a b => rfl
  unfold parseNatTok
  rw [htw, ht, hdw2, hdw, List.append_nil]
  simp [hne, natChars_foldl n]

theorem parseIntTok_intChars (i : Int) {rest : List Char} (hd : isDelim rest = true) :
    parseIntTok (intChars i ++ rest) = some (i, rest) := by
  cases i with
  | ofNat m =>
    obtain ⟨d, t, hd10, ht⟩ := natCharsGo_head (show m < m + 1 by omega)
    have hch : intChars (.ofNat m) = natChars m := rfl
    have hne : digitCh d ≠ '-' := by
      intro hh
      have h1 := digitCh_toNat hd10
      rw [hh] at h1
      have : ('-').toNat = 45 := by decide
      omega
    rw [hch]
    conv_lhs => rw [show natChars m = digitCh d :: t from ht]
    rw [show (digitCh d :: t) ++ rest = digitCh d :: (t ++ rest) from rfl]
    simp only [parseIntTok]
    rw [if_neg hne]
    rw [show digitCh d :: (t ++ rest) = (digitCh d :: t) ++ rest from rfl, ← ht]
    rw [show natCharsGo (m + 1) m = natChars m from rfl, parseNatTok_natChars m hd]
    rfl
  | negSucc m =>
    have hch : intChars (.negSucc m) = '-' :: natChars (m + 1) := rfl
    rw [hch]
    rw [show ('-' :: natChars (m + 1)) ++ rest = '-' :: (natChars (m + 1) ++ rest) from rfl]
    simp only [parseIntTok, if_true]
    rw [parseNatTok_natChars (m + 1) hd]
    simp [Int.negSucc_eq]

theorem escJsonChar_shape (c : Char) :
    (∃ e, escJsonChar c = ['\\', e] ∧ e ≠ 'u' ∧ decodeEsc e = some c) ∨
    (c.toNat < 32 ∧
      escJsonChar c = ['\\', 'u', '0', '0', hexCh (c.toNat / 16), hexCh (c.toNat % 16)]) ∨
    (escJsonChar c = [c] ∧ c ≠ '"' ∧ c ≠ '\\') := by
  by_cases h1 : c = '"'
  · exact .inl ⟨'"', by simp [escJsonChar, h1], by decide, by rw [h1]; rfl⟩
  by_cases h2 : c = '\\'
  · exact .inl ⟨'\\', by simp [escJsonChar, h1, h2], by decide, by rw [h2]; rfl⟩
  by_cases h3 : c = '\n'
  · exact .inl ⟨'n', by simp [escJsonChar, h1, h2, h3], by decide, by rw [h3]; rfl⟩
  by_cases h4 : c = '\t'
  · exact .inl ⟨'t', by simp [escJsonChar, h1, h2, h3, h4], by decide, by rw [h4]; rfl⟩
  by_cases h5 : c = '\r'
  · exact .inl ⟨'r', by simp [escJsonChar, h1, h2, h3, h4, h5], by decide, by rw [h5]; rfl⟩
  by_cases h6 : c = '\x08'
  · exact .inl ⟨'b', by simp [escJsonChar, h1, h2, h3, h4, h5, h6], by decide, by rw [h6]; rfl⟩
  by_cases h7 : c = '\x0c'
  · exact .inl ⟨'f', by simp [escJsonChar, h1, h2, h3, h4, h5, h6, h7], by decide,
      by rw [h7]; rfl⟩
  by_cases h8 : c.toNat < 32
  · exact .inr (.inl ⟨h8, by simp [escJsonChar, h1, h2, h3, h4, h5, h6, h7, h8]⟩)
  · exact .inr (.inr ⟨by simp [escJsonChar, h1, h2, h3, h4, h5, h6, h7, h8], h1, h2⟩)

theorem scanStrGo_escJson :
    ∀ (s : List Char) (fuel : Nat) (rest : List Char),
      (escJson s).length < fuel →
      scanStrGo fuel (escJson s ++ ('"' :: rest)) = some (s, rest) := by
  intro s
  induction s with
  | nil =>
    intro fuel rest h
    cases fuel with
    | zero => omega
    | succ f => simp [escJson, scanStrGo]
  | cons c cs ih =>
    intro fuel rest h
    rw [escJson_cons] at h ⊢
    cases fuel with
    | zero => omega
    | succ f =>
      rcases escJsonChar_shape c with ⟨e, hesc, heu, hdec⟩ | ⟨h32, hesc⟩ | ⟨hesc, hq, hb⟩
      · rw [hesc] at h ⊢
        have hlist : (['\\', e] ++ escJson cs) ++ ('"' :: rest)
            = '\\' :: e :: (escJson cs ++ ('"' :: rest)) := by simp
        rw [hlist]
        have hih := ih f rest (by simp at h; omega)
        have hne : e ≠ '"' → True := fun _ => trivial
        simp [scanStrGo, heu, hdec, hih]
      · rw [hesc] at h ⊢
        have hlist : (['\\', 'u', '0', '0', hexCh (c.toNat / 16), hexCh (c.toNat % 16)]
              ++ escJson cs) ++ ('"' :: rest)
            = '\\' :: 'u' :: '0' :: '0' :: hexCh (c.toNat / 16) :: hexCh (c.toNat % 16)
              :: (escJson cs ++ ('"' :: rest)) := by simp
        rw [hlist]
        have hih := ih f rest (by simp at h; omega)
        have hv0 : hexVal '0' = some 0 := rfl
        have hv1 : hexVal (hexCh (c.toNat / 16)) = some (c.toNat / 16) :=
          hexCh_hexVal (by omega)
        have hv2 : hexVal (hexCh (c.toNat % 16)) = some (c.toNat % 16) :=
          hexCh_hexVal (by omega)
        have hval : c.toNat / 16 * 16 + c.toNat % 16 = c.toNat := by omega
        simp [scanStrGo, hv0, hv1, hv2, hih, hval, Char.ofNat_toNat]
      · rw [hesc] at h ⊢
        have hlist : ([c] ++ escJson cs) ++ ('"' :: rest)
            = c :: (escJson cs ++ ('"' :: rest)) := by simp
        rw [hlist]
        have hih := ih f rest (by simp at h; omega)
        simp [scanStrGo, hq, hb, hih]

theorem scanStr_escJson (s : List Char) (rest : List Char) :
    scanStr (escJson s ++ ('"' :: rest)) = some (s, rest) := by
  unfold scanStr
  exact scanStrGo_escJson s _ rest (by simp; omega)

mutual

theorem jdepth_le_len : ∀ (j : Json), jdepth j ≤ (jrender j).length
  | .null => by simp [jdepth, jrender]
  | .bool b => by cases b <;> simp [jdepth, jrender]
  | .num i => by
    have h : intChars i ≠ [] := by
      cases i with
      | ofNat m => exact natChars_ne_nil m
      | negSucc m => simp [intChars]
    have := List.length_pos.mpr h
    simp [jdepth, jrender]
    omega
  | .str s => by simp [jdepth, jrender]
  | .arr vs => by
    have h := jdepthElems_le_len vs
    simp [jdepth, jrender]
    omega
  | .obj ms => by
    have h := jdepthMembers_le_len ms
    simp [jdepth, jrender]
    omega

theorem jdepthElems_le_len : ∀ (vs : List Json), jdepthElems vs ≤ (jrenderElems vs).length + 1
  | [] => by simp [jdepthElems, jrenderElems]
  | [v] => by
    have := jdepth_le_len v
    simp [jdepthElems, jrenderElems]
    omega
  | v :: w :: ws => by
    have h1 := jdepth_le_len v
    have h2 := jdepthElems_le_len (w :: ws)
    rw [show jdepthElems (v :: w :: ws) = 1 + jdepth v + jdepthElems (w :: ws) from rfl,
        show jrenderElems (v :: w :: ws) = jrender v ++ ',' :: jrenderElems (w :: ws) from rfl]
    simp only [List.length_append, List.length_cons]
    omega

theorem jdepthMembers_le_len :
    ∀ (ms : List (String × Json)), jdepthMembers ms ≤ (jrenderMembers ms).length + 1
  | [] => by simp [jdepthMembers, jrenderMembers]
  | [(k, v)] => by
    have := jdepth_le_len v
    simp [jdepthMembers, jrenderMembers]
    omega
  | (k, v) :: w :: ws => by
    have h1 := jdepth_le_len v
    have h2 := jdepthMembers_le_len (w :: ws)
    rw [show jdepthMembers ((k, v) :: w :: ws) = 1 + jdepth v + jdepthMembers (w :: ws) from rfl,
        show jrenderMembers ((k, v) :: w :: ws)
          = ('"' :: (escJson k.data ++ '"' :: ':' :: jrender v)) ++ ',' :: jrenderMembers (w :: ws)
          from rfl]
    simp only [List.length_append, List.length_cons]
    omega

end

theorem digit_head_props {d : Nat} (h : d < 10) :
    isJsonWs (digitCh d) = false ∧ digitCh d ≠ ']' ∧ digitCh d ≠ '\x7d' := by
  interval_cases d <;> exact ⟨by decide, by decide, by decide⟩

theorem head_ok_of_decide {c : Char}
    (h : (!isJsonWs c && !(c == ']') && !(c == '\x7d')) = true) :
    isJsonWs c = false ∧ c ≠ ']' ∧ c ≠ '\x7d' := by
  simp only [Bool.and_eq_true, Bool.not_eq_true', beq_eq_false_iff_ne] at h
  exact ⟨h.1.1, h.1.2, h.2⟩

theorem jrender_head (j : Json) :
    ∃ c t, jrender j = c :: t ∧ isJsonWs c = false ∧ c ≠ ']' ∧ c ≠ '\x7d' := by
  cases j with
  | num i =>
    cases i with
    | ofNat m =>
      obtain ⟨d, t, hd10, ht⟩ := natCharsGo_head (show m < m + 1 by omega)
      obtain ⟨p1, p2, p3⟩ := digit_head_props hd10
      exact ⟨digitCh d, t, by simp [jrender, intChars, natChars, ht], p1, p2, p3⟩
    | negSucc m =>
      exact ⟨'-', natChars (m + 1), rfl, head_ok_of_decide (by decide)⟩
  | bool b =>
    cases b with
    | true => exact ⟨'t', _, rfl, head_ok_of_decide (by decide)⟩
    | false => exact ⟨'f', _, rfl, head_ok_of_decide (by decide)⟩
  | null => exact ⟨'n', _, rfl, head_ok_of_decide (by decide)⟩
  | str s => exact ⟨'"', _, rfl, head_ok_of_decide (by decide)⟩
  | arr vs => exact ⟨'[', _, rfl, head_ok_of_decide (by decide)⟩
  | obj ms => exact ⟨'\x7b', _, rfl, head_ok_of_decide (by decide)⟩

theorem intChars_head (i : Int) :
    ∃ c t, intChars i = c :: t ∧ (c = '-' ∨ isDigitCh c = true) := by
  cases i with
  | ofNat m =>
    obtain ⟨d, t, hd10, ht⟩ := natCharsGo_head (show m < m + 1 by omega)
    exact ⟨digitCh d, t, by simp [intChars, natChars, ht], .inr (isDigitCh_digitCh hd10)⟩
  | negSucc m => exact ⟨'-', natChars (m + 1), rfl, .inl rfl⟩

theorem char_facts_of_numhead {c : Char} (hc : c = '-' ∨ isDigitCh c = true) :
    isJsonWs c = false ∧ c ≠ 'n' ∧ c ≠ 't' ∧ c ≠ 'f' ∧ c ≠ '"' ∧ c ≠ '[' ∧ c ≠ '\x7b' := by
  rcases hc with h | h
  · subst h
    exact ⟨by decide, by decide, by decide, by decide, by decide, by decide, by decide⟩
  · have hn : 48 ≤ c.toNat ∧ c.toNat ≤ 57 := by simpa [isDigitCh] using h
    have hw : isJsonWs c = false := by simp [isJsonWs]; omega
    refine ⟨hw, ?_, ?_, ?_, ?_, ?_, ?_⟩ <;>
      (intro hh; rw [hh] at h; exact absurd h (by decide))

theorem parseVal_numhead (n : Nat) {c : Char} (hc : c = '-' ∨ isDigitCh c = true)
    (t : List Char) :
    parseVal (n + 1) (c :: t) = (parseIntTok (c :: t)).map (fun p => (Json.num p.1, p.2)) := by
  obtain ⟨hw, h1, h2, h3, h4, h5, h6⟩ := char_facts_of_numhead hc
  simp [parseVal, skipWs, List.dropWhile_cons, hw, h1, h2, h3, h4, h5, h6]

theorem jrenderElems_head (v : Json) (vs : List Json) :
    ∃ c t, jrenderElems (v :: vs) = c :: t ∧ isJsonWs c = false ∧ c ≠ ']' ∧ c ≠ '\x7d' := by
  obtain ⟨c, t, hh, hw, h1, h2⟩ := jrender_head v
  cases vs with
  | nil => exact ⟨c, t, by rw [show jrenderElems [v] = jrender v from rfl, hh], hw, h1, h2⟩
  | cons w ws =>
    refine ⟨c, t ++ ',' :: jrenderElems (w :: ws), ?_, hw, h1, h2⟩
    rw [show jrenderElems (v :: w :: ws) = jrender v ++ ',' :: jrenderElems (w :: ws) from rfl,
      hh]
    rfl

theorem jrenderMembers_head (km : String × Json) (ms : List (String × Json)) :
    ∃ t, jrenderMembers (km :: ms) = '"' :: t := by
  obtain ⟨k, v⟩ := km
  cases ms with
  | nil => exact ⟨_, rfl⟩
  | cons w ws => exact ⟨_, rfl⟩

theorem parseVal_arr_step (n : Nat) (E rest' : List Char) (vsOut : List Json)
    (hhead : ∃ c t, E = c :: t ∧ isJsonWs c = false ∧ c ≠ ']')
    (hPE : parseElems n E = some (vsOut, rest')) :
    parseVal (n + 1) ('[' :: E) = some (.arr vsOut, rest') := by
  obtain ⟨c, t, hE, hws, hbr⟩ := hhead
  have hred : parseVal (n + 1) ('[' :: E)
      = (match skipWs E with
         | ']' :: r2 => some (.arr [], r2)
         | r => (parseElems n r).map (fun p => (.arr p.1, p.2))) := rfl
  rw [hred]
  have hskip : skipWs E = E := by rw [hE]; simp [skipWs, List.dropWhile_cons, hws]
  rw [hskip, hE]
  split
  · next r2 heq =>
    injection heq with h1 h2
    exact absurd h1 hbr
  · next r heq =>
    rw [← hE, hPE]
    rfl

theorem parseVal_obj_step (n : Nat) (E rest' : List Char) (msOut : List (String × Json))
    (hhead : ∃ t, E = '"' :: t)
    (hPM : parseMembers n E = some (msOut, rest')) :
    parseVal (n + 1) ('\x7b' :: E) = some (.obj msOut, rest') := by
  obtain ⟨t, hE⟩ := hhead
  have hred : parseVal (n + 1) ('\x7b' :: E)
      = (match skipWs E with
         | '\x7d' :: r2 => some (.obj [], r2)
         | r => (parseMembers n r).map (fun p => (.obj p.1, p.2))) := rfl
  rw [hred]
  have hskip : skipWs E = E := by
    rw [hE]
    simp [skipWs, List.dropWhile_cons, show isJsonWs '"' = false by decide]
  rw [hskip, hE]
  split
  · next r2 heq =>
    injection heq with h1 h2
    exact absurd h1 (by decide)
  · next r heq =>
    rw [← hE, hPM]
    rfl

theorem parseMembers_red (m : Nat) (kd X : List Char) :
    parseMembers (m + 1) ('"' :: (escJson kd ++ ('"' :: (':' :: X))))
      = (match parseVal m X with
         | none => none
         | some (vv, r3) =>
           match skipWs r3 with
           | ',' :: r4 => (parseMembers m r4).map (fun p => ((⟨kd⟩, vv) :: p.1, p.2))
           | '\x7d' :: r4 => some ([(⟨kd⟩, vv)], r4)
           | _ => none) := by
  rw [show parseMembers (m + 1) ('"' :: (escJson kd ++ ('"' :: (':' :: X))))
        = (match scanStr (escJson kd ++ ('"' :: (':' :: X))) with
           | none => none
           | some (kk, r1) =>
             match skipWs r1 with
             | ':' :: r2 =>
               (match parseVal m r2 with
                | none => none
                | some (vv, r3) =>
                  match skipWs r3 with
                  | ',' :: r4 => (parseMembers m r4).map (fun p => ((⟨kk⟩, vv) :: p.1, p.2))
                  | '\x7d' :: r4 => some ([(⟨kk⟩, vv)], r4)
                  | _ => none)
             | _ => none) from rfl]
  rw [scanStr_escJson kd (':' :: X)]
  rfl

mutual

theorem parseVal_jrender : ∀ (n : Nat) (j : Json) (rest : List Char),
    jdepth j < n → isDelim rest = true → parseVal n (jrender j ++ rest) = some (j, rest)
  | 0, _, _, hf, _ => absurd hf (Nat.not_lt_zero _)
  | n + 1, j, rest, hf, hd => by
    cases j with
    | null => rfl
    | bool b => cases b <;> rfl
    | str s =>
      have hform : jrender (Json.str s) ++ rest
          = '"' :: (escJson s.data ++ ('"' :: rest)) := by simp [jrender]
      rw [hform]
      rw [show parseVal (n + 1) ('"' :: (escJson s.data ++ ('"' :: rest)))
            = (scanStr (escJson s.data ++ ('"' :: rest))).map
                (fun p => (Json.str ⟨p.1⟩, p.2)) from rfl]
      rw [scanStr_escJson]
      rfl
    | num i =>
      obtain ⟨c₀, t₀, hic, hcd⟩ := intChars_head i
      have hform : jrender (Json.num i) ++ rest = c₀ :: (t₀ ++ rest) := by
        rw [show jrender (Json.num i) = intChars i from rfl, hic]
        rfl
      rw [hform, parseVal_numhead n hcd]
      rw [show c₀ :: (t₀ ++ rest) = (c₀ :: t₀) ++ rest from rfl, ← hic]
      rw [parseIntTok_intChars i hd]
      rfl
    | arr vs =>
      cases vs with
      | nil => rfl
      | cons v vs' =>
        have hform : jrender (Json.arr (v :: vs')) ++ rest
            = '[' :: (jrenderElems (v :: vs') ++ (']' :: rest)) := by simp [jrender]
        rw [hform]
        refine parseVal_arr_step n _ rest (v :: vs') ?_
          (parseElems_jrender n v vs' rest (by simp only [jdepth] at hf; omega))
        obtain ⟨c, t, hh, hw, h1, _⟩ := jrenderElems_head v vs'
        exact ⟨c, t ++ (']' :: rest), by rw [hh]; rfl, hw, h1⟩
    | obj ms =>
      cases ms with
      | nil => rfl
      | cons m ms' =>
        obtain ⟨k, v⟩ := m
        have hform : jrender (Json.obj ((k, v) :: ms')) ++ rest
            = '\x7b' :: (jrenderMembers ((k, v) :: ms') ++ ('\x7d' :: rest)) := by
          simp [jrender]
        rw [hform]
        refine parseVal_obj_step n _ rest ((k, v) :: ms') ?_
          (parseMembers_jrender n k v ms' rest (by simp only [jdepth] at hf; omega))
        obtain ⟨t, hh⟩ := jrenderMembers_head (k, v) ms'
        exact ⟨t ++ ('\x7d' :: rest), by rw [hh]; rfl⟩

theorem parseElems_jrender : ∀ (n : Nat) (v : Json) (vs : List Json) (rest : List Char),
    jdepthElems (v :: vs) < n →
    parseElems n (jrenderElems (v :: vs) ++ (']' :: rest)) = some (v :: vs, rest)
  | 0, _, _, _, hf => absurd hf (Nat.not_lt_zero _)
  | m + 1, v, vs, rest, hf => by
    cases vs with
    | nil =>
      rw [show jrenderElems [v] = jrender v from rfl]
      have hpv := parseVal_jrender m v (']' :: rest)
        (by simp only [jdepthElems] at hf; omega) rfl
      simp only [parseElems]
      rw [hpv]
      rfl
    | cons w ws =>
      rw [show jrenderElems (v :: w :: ws) = jrender v ++ ',' :: jrenderElems (w :: ws) from rfl]
      rw [List.append_assoc, show (',' :: jrenderElems (w :: ws)) ++ (']' :: rest)
            = ',' :: (jrenderElems (w :: ws) ++ (']' :: rest)) from rfl]
      have hpv := parseVal_jrender m v (',' :: (jrenderElems (w :: ws) ++ (']' :: rest)))
        (by simp only [jdepthElems] at hf; omega) rfl
      simp only [parseElems]
      rw [hpv]
      show (parseElems m (jrenderElems (w :: ws) ++ (']' :: rest))).map
          (fun p => (v :: p.1, p.2)) = some (v :: w :: ws, rest)
      rw [parseElems_jrender m w ws rest (by simp only [jdepthElems] at hf ⊢; omega)]
      rfl

theorem parseMembers_jrender :
    ∀ (n : Nat) (k : String) (v : Json) (ms : List (String × Json)) (rest : List Char),
      jdepthMembers ((k, v) :: ms) < n →
      parseMembers n (jrenderMembers ((k, v) :: ms) ++ ('\x7d' :: rest))
        = some ((k, v) :: ms, rest)
  | 0, _, _, _, _, hf => absurd hf (Nat.not_lt_zero _)
  | m + 1, k, v, ms, rest, hf => by
    cases ms with
    | nil =>
      have hform : jrenderMembers [(k, v)] ++ ('\x7d' :: rest)
          = '"' :: (escJson k.data ++ ('"' :: (':' :: (jrender v ++ ('\x7d' :: rest))))) := by
        simp [jrenderMembers]
      rw [hform, parseMembers_red m k.data (jrender v ++ ('\x7d' :: rest))]
      have hpv := parseVal_jrender m v ('\x7d' :: rest)
        (by simp only [jdepthMembers] at hf; omega) rfl
      rw [hpv]
      rfl
    | cons w ws =>
      obtain ⟨k2, v2⟩ := w
      have hform : jrenderMembers ((k, v) :: (k2, v2) :: ws) ++ ('\x7d' :: rest)
          = '"' :: (escJson k.data ++ ('"' :: (':' :: (jrender v
              ++ (',' :: (jrenderMembers ((k2, v2) :: ws) ++ ('\x7d' :: rest))))))) := by
        simp [jrenderMembers]
      rw [hform, parseMembers_red m k.data
        (jrender v ++ (',' :: (jrenderMembers ((k2, v2) :: ws) ++ ('\x7d' :: rest))))]
      have hpv := parseVal_jrender m v
        (',' :: (jrenderMembers ((k2, v2) :: ws) ++ ('\x7d' :: rest)))
        (by simp only [jdepthMembers] at hf; omega) rfl
      rw [hpv]
      show (parseMembers m (jrenderMembers ((k2, v2) :: ws) ++ ('\x7d' :: rest))).map
          (fun p => ((k, v) :: p.1, p.2)) = some ((k, v) :: (k2, v2) :: ws, rest)
      rw [parseMembers_jrender m k2 v2 ws rest
        (by simp only [jdepthMembers] at hf ⊢; omega)]
      rfl

end

theorem jsonParseText_jrender (j : Json) : jsonParseText ⟨jrender j⟩ = .ok j := by
  show (match parseVal ((jrender j).length + 1) (jrender j) with
        | none => (Except.error "Expecting value" : Except String Json)
        | some (jj, rest) =>
          if (skipWs rest).isEmpty then .ok jj else .error "Extra data") = .ok j
  have h := parseVal_jrender ((jrender j).length + 1) j []
    (by have := jdepth_le_len j; omega) rfl
  rw [List.append_nil] at h
  rw [h]
  rfl

theorem pyStrip_obj_render (ms : List (String × Json)) :
    pyStrip ⟨jrender (.obj ms)⟩ = ⟨jrender (.obj ms)⟩ := by
  show String.mk (((('\x7b' :: (jrenderMembers ms ++ ['\x7d'])).dropWhile
      isPyWs).reverse.dropWhile isPyWs).reverse)
    = String.mk ('\x7b' :: (jrenderMembers ms ++ ['\x7d']))
  rw [List.dropWhile_cons, if_neg (by decide)]
  rw [show ('\x7b' :: (jrenderMembers ms ++ ['\x7d'])).reverse
        = '\x7d' :: ((jrenderMembers ms).reverse ++ ['\x7b']) from by
      simp [List.reverse_cons, List.reverse_append]]
  rw [List.dropWhile_cons, if_neg (by decide)]
  rw [show ('\x7d' :: ((jrenderMembers ms).reverse ++ ['\x7b'])).reverse
        = '\x7b' :: (jrenderMembers ms ++ ['\x7d']) from by
      simp [List.reverse_cons, List.reverse_append]]

/-- **C6**: for every value `v` that is a valid instance of the target
schema — modelled as a typed value with a JSON object encoding whose
model validation (`dec`, the `model_validate` of the target Pydantic
model) is a left inverse at `v` — serialising `v` to JSON text and
passing that text through the Validator's `validate` yields a value
equal to `v`: the strip and the strict JSON parse of `validate` recover
exactly the encoded JSON value, and model validation maps it back. -/
theorem validate_roundtrip :
    ∀ {α : Type} (encode : α → Json) (dec : Json → Except String α) (mn : String) (v : α)
      (ms : List (String × Json)),
      encode v = .obj ms →
      dec (encode v) = .ok v →
      validate (String.mk (jrender (encode v))) mn dec = .ok v := by
  intro α encode dec mn v ms hobj hdec
  rw [hobj] at hdec ⊢
  unfold validate
  rw [pyStrip_obj_render ms, jsonParseText_jrender (.obj ms)]
  show (match dec (Json.obj ms) with
        | Except.error errs => (Except.error (VErr.modelValidateFail mn errs) : Except VErr α)
        | Except.ok inst => Except.ok inst) = Except.ok v
  rw [hdec]

theorem validate_roundtrip_witness :
    validate (String.mk (jrender (encodeEvent
        { title := some "Design Futures", dateOrder := "20260612" }))) "Event"
        eventModelValidate
      = .ok { title := some "Design Futures", dateOrder := "20260612" } :=
  validate_roundtrip encodeEvent eventModelValidate "Event"
    { title := some "Design Futures", dateOrder := "20260612" } _ rfl rfl

/-! ## Compile-context lemmas (grammar.py `_resolve_ref` cycle safety) -/

theorem contains_eq_decide_mem (l : List String) (a : String) :
    l.contains a = decide (a ∈ l) := by
  by_cases h : a ∈ l
  · rw [decide_eq_true h]
    exact List.elem_iff.mpr h
  · rw [decide_eq_false h]
    exact Bool.eq_false_iff.mpr (fun hc => h (List.elem_iff.mp hc))

theorem keysOf_ctxSet (ctx : Ctx) (n : String) (e : GExpr) :
    keysOf (ctxSet ctx n e) = keysOf ctx := by
  unfold keysOf ctxSet
  rw [List.map_map]
  apply List.map_congr_left
  intro p _
  by_cases h : p.1 = n
  · simp [Function.comp, h]
  · simp [Function.comp, beq_eq_false_iff_ne.mpr h]

theorem keysOf_append (ctx : Ctx) (p : String × GExpr) :
    keysOf (ctx ++ [p]) = keysOf ctx ++ [p.1] := by
  simp [keysOf]

theorem ctxHas_false_not_mem {ctx : Ctx} {n : String} (h : ctxHas ctx n = false) :
    n ∉ keysOf ctx := by
  intro hmem
  unfold ctxHas at h
  obtain ⟨p, hp, hfst⟩ := List.mem_map.mp hmem
  have htrue : ctx.any (fun p => p.1 == n) = true :=
    List.any_eq_true.mpr ⟨p, hp, beq_iff_eq.mpr hfst⟩
  rw [h] at htrue
  exact Bool.noConfusion htrue

theorem length_filter_mono {α : Type} (p q : α → Bool) (l : List α)
    (h : ∀ a ∈ l, q a = true → p a = true) :
    (l.filter q).length ≤ (l.filter p).length := by
  induction l with
  | nil => simp
  | cons a t ih =>
    have iht := ih (fun x hx => h x (by simp [hx]))
    by_cases hq : q a = true
    · have hp := h a (by simp) hq
      simp [List.filter_cons, hq, hp]
      omega
    · simp only [Bool.not_eq_true] at hq
      by_cases hp : p a = true
      · simp [List.filter_cons, hq, hp]
        omega
      · simp only [Bool.not_eq_true] at hp
        simpa [List.filter_cons, hq, hp] using iht

theorem length_filter_lt {α : Type} (p q : α → Bool) (l : List α)
    (h : ∀ a ∈ l, q a = true → p a = true)
    (a₀ : α) (ha : a₀ ∈ l) (hq : q a₀ = false) (hp : p a₀ = true) :
    (l.filter q).length < (l.filter p).length := by
  induction l with
  | nil => exact absurd ha (List.not_mem_nil a₀)
  | cons b t ih =>
    have hmono := length_filter_mono p q t (fun x hx => h x (by simp [hx]))
    rcases List.mem_cons.mp ha with hb | hmem
    · subst hb
      simp [List.filter_cons, hq, hp]
      omega
    · have iht := ih (fun x hx => h x (by simp [hx])) hmem
      by_cases hqb : q b = true
      · have hpb := h b (by simp) hqb
        simp [List.filter_cons, hqb, hpb]
        omega
      · simp only [Bool.not_eq_true] at hqb
        by_cases hpb : p b = true
        · simp [List.filter_cons, hqb, hpb]
          omega
        · simp only [Bool.not_eq_true] at hpb
          simpa [List.filter_cons, hqb, hpb] using iht

theorem remainingDefs_mono {dfs : Defs} {ctx ctx' : Ctx} (h : keysOf ctx ⊆ keysOf ctx') :
    remainingDefs dfs ctx' ≤ remainingDefs dfs ctx := by
  unfold remainingDefs
  apply length_filter_mono
  intro d _ hq
  simp only [Bool.not_eq_true', contains_eq_decide_mem, decide_eq_false_iff_not] at hq ⊢
  exact fun hmem => hq (h hmem)

theorem mem_of_lookup {β : Type} :
    ∀ (l : List (String × β)) (k : String) (v : β), l.lookup k = some v → (k, v) ∈ l := by
  intro l
  induction l with
  | nil => intro k v h; simp [List.lookup] at h
  | cons p t ih =>
    intro k v h
    obtain ⟨k₀, v₀⟩ := p
    by_cases hk : k = k₀
    · subst hk
      simp [List.lookup_cons] at h
      subst h
      exact List.mem_cons_self _ _
    · rw [lookup_cons_ne_aux hk] at h
      exact List.mem_cons_of_mem _ (ih k v h)

theorem remainingDefs_strict {dfs : Defs} {ctx : Ctx} {dn : String} {σ : Schema} (x : GExpr)
    (hlk : dfs.lookup dn = some σ) (hmiss : ctxHas ctx (ruleNameForModel dn) = false) :
    remainingDefs dfs (ctx ++ [(ruleNameForModel dn, x)]) < remainingDefs dfs ctx := by
  unfold remainingDefs
  refine length_filter_lt _ _ _ ?hmono (dn, σ) (mem_of_lookup dfs dn σ hlk) ?hq ?hp
  case hmono =>
    intro d _ hq
    simp only [keysOf_append, Bool.not_eq_true', contains_eq_decide_mem,
      decide_eq_false_iff_not, List.mem_append] at hq ⊢
    exact fun hmem => hq (Or.inl hmem)
  case hq =>
    simp [keysOf_append, contains_eq_decide_mem]
  case hp =>
    simp only [contains_eq_decide_mem, Bool.not_eq_true', decide_eq_false_iff_not]
    exact ctxHas_false_not_mem hmiss

theorem remainingDefs_le_length (dfs : Defs) (ctx : Ctx) :
    remainingDefs dfs ctx ≤ dfs.length :=
  List.length_filter_le _ _

theorem schemaSize_le_defsSize :
    ∀ (dfs : Defs) (dn : String) (σ : Schema), dfs.lookup dn = some σ →
      schemaSize σ ≤ defsSize dfs := by
  intro dfs dn σ h
  have hmem := mem_of_lookup dfs dn σ h
  clear h
  induction dfs with
  | nil => exact absurd hmem (List.not_mem_nil _)
  | cons d t ih =>
    rcases List.mem_cons.mp hmem with hd | hmem'
    · rw [← hd]
      simp [defsSize]
    · have := ih hmem'
      simp [defsSize] at this ⊢
      omega

/-- On every successful compile, the set of reserved rule names only
grows: each of the seven mutually recursive compiler functions returns a
context whose keys include all keys of the context it was given. -/
theorem compiler_mono (dfs : Defs) : ∀ n : Nat,
    (∀ s rn ctx e ctx', schemaToRule dfs n s rn ctx = .ok (e, ctx') →
      keysOf ctx ⊆ keysOf ctx') ∧
    (∀ t rn ctx e ctx', resolveRef dfs n t rn ctx = .ok (e, ctx') →
      keysOf ctx ⊆ keysOf ctx') ∧
    (∀ vs rn i ctx es ctx', handleAnyOf dfs n vs rn i ctx = .ok (es, ctx') →
      keysOf ctx ⊆ keysOf ctx') ∧
    (∀ it rn ctx e ctx', arrayRule dfs n it rn ctx = .ok (e, ctx') →
      keysOf ctx ⊆ keysOf ctx') ∧
    (∀ ps req rn ctx es ctx', reqPairsLoop dfs n ps req rn ctx = .ok (es, ctx') →
      keysOf ctx ⊆ keysOf ctx') ∧
    (∀ ps req rn ctx es ctx', optPairsLoop dfs n ps req rn ctx = .ok (es, ctx') →
      keysOf ctx ⊆ keysOf ctx') ∧
    (∀ ps req rn ctx e ctx', objectRule dfs n ps req rn ctx = .ok (e, ctx') →
      keysOf ctx ⊆ keysOf ctx') := by
  intro n
  induction n with
  | zero =>
    refine ⟨?_, ?_, ?_, ?_, ?_, ?_, ?_⟩
    · intro _ _ _ _ _ h; exact Except.noConfusion h
    · intro _ _ _ _ _ h; exact Except.noConfusion h
    · intro _ _ _ _ _ _ h; exact Except.noConfusion h
    · intro _ _ _ _ _ h; exact Except.noConfusion h
    · intro _ _ _ _ _ _ h; exact Except.noConfusion h
    · intro _ _ _ _ _ _ h; exact Except.noConfusion h
    · intro _ _ _ _ _ _ h; exact Except.noConfusion h
  | succ n ih =>
    obtain ⟨ihS, ihR, ihA, ihAr, ihRq, ihOp, ihOb⟩ := ih
    refine ⟨?_, ?_, ?_, ?_, ?_, ?_, ?_⟩
    · -- schemaToRule
      intro s rn ctx e ctx' h
      cases s with
      | ref target =>
        simp only [schemaToRule] at h
        exact ihR target rn ctx e ctx' h
      | anyOf vs =>
        simp only [schemaToRule] at h
        split at h
        · exact Except.noConfusion h
        · next es ctx₁ heq =>
            simp only [Except.ok.injEq, Prod.mk.injEq] at h
            obtain ⟨-, h2⟩ := h
            subst h2
            exact ihA vs rn 0 ctx es ctx₁ heq
      | str ev =>
        cases ev with
        | none =>
          simp only [schemaToRule, Except.ok.injEq, Prod.mk.injEq] at h
          obtain ⟨-, h2⟩ := h
          subst h2
          exact List.Subset.refl _
        | some vals =>
          simp only [schemaToRule] at h
          split at h
          · exact Except.noConfusion h
          · simp only [Except.ok.injEq, Prod.mk.injEq] at h
            obtain ⟨-, h2⟩ := h
            subst h2
            exact List.Subset.refl _
      | integer =>
        simp only [schemaToRule, Except.ok.injEq, Prod.mk.injEq] at h
        obtain ⟨-, h2⟩ := h
        subst h2
        exact List.Subset.refl _
      | number =>
        simp only [schemaToRule, Except.ok.injEq, Prod.mk.injEq] at h
        obtain ⟨-, h2⟩ := h
        subst h2
        exact List.Subset.refl _
      | boolean =>
        simp only [schemaToRule, Except.ok.injEq, Prod.mk.injEq] at h
        obtain ⟨-, h2⟩ := h
        subst h2
        exact List.Subset.refl _
      | nullT =>
        simp only [schemaToRule, Except.ok.injEq, Prod.mk.injEq] at h
        obtain ⟨-, h2⟩ := h
        subst h2
        exact List.Subset.refl _
      | array items =>
        simp only [schemaToRule] at h
        exact ihAr items rn ctx e ctx' h
      | object props required =>
        simp only [schemaToRule] at h
        exact ihOb props required rn ctx e ctx' h
      | bareEnum vals =>
        simp only [schemaToRule] at h
        split at h
        · exact Except.noConfusion h
        · simp only [Except.ok.injEq, Prod.mk.injEq] at h
          obtain ⟨-, h2⟩ := h
          subst h2
          exact List.Subset.refl _
      | unsupported d =>
        simp only [schemaToRule] at h
        exact Except.noConfusion h
    · -- resolveRef
      intro target rn ctx e ctx' h
      simp only [resolveRef] at h
      cases hpt : parseRefTarget target with
      | none =>
        simp only [hpt] at h
        exact Except.noConfusion h
      | some defName =>
        simp only [hpt] at h
        cases hlk : dfs.lookup defName with
        | none =>
          simp only [hlk] at h
          exact Except.noConfusion h
        | some defSchema =>
          simp only [hlk] at h
          by_cases hc : ctxHas ctx (ruleNameForModel defName) = true
          · simp only [hc, if_true, Except.ok.injEq, Prod.mk.injEq] at h
            obtain ⟨-, h2⟩ := h
            subst h2
            exact List.Subset.refl _
          · simp only [Bool.not_eq_true] at hc
            simp only [hc, Bool.false_eq_true, if_false] at h
            split at h
            · exact Except.noConfusion h
            · next expr ctx₂ heq =>
                simp only [Except.ok.injEq, Prod.mk.injEq] at h
                obtain ⟨-, h2⟩ := h
                subst h2
                have hsub := ihS defSchema (ruleNameForModel defName)
                  (ctx ++ [(ruleNameForModel defName, GExpr.ruleRef "null")]) expr ctx₂ heq
                rw [keysOf_ctxSet]
                intro a ha
                apply hsub
                rw [keysOf_append]
                exact List.mem_append_left _ ha
    · -- handleAnyOf
      intro vs rn i ctx es ctx' h
      cases vs with
      | nil =>
        simp only [handleAnyOf, Except.ok.injEq, Prod.mk.injEq] at h
        obtain ⟨-, h2⟩ := h
        subst h2
        exact List.Subset.refl _
      | cons v rest =>
        simp only [handleAnyOf] at h
        split at h
        · exact Except.noConfusion h
        · next ex ctx₁ heq1 =>
            split at h
            · exact Except.noConfusion h
            · next es₂ ctx₂ heq2 =>
                simp only [Except.ok.injEq, Prod.mk.injEq] at h
                obtain ⟨-, h2⟩ := h
                subst h2
                exact List.Subset.trans
                  (ihS v (rn ++ "-opt" ++ toString i) ctx ex ctx₁ heq1)
                  (ihA rest rn (i + 1) ctx₁ es₂ ctx₂ heq2)
    · -- arrayRule
      intro it rn ctx e ctx' h
      cases it with
      | none =>
        simp only [arrayRule, Except.ok.injEq, Prod.mk.injEq] at h
        obtain ⟨-, h2⟩ := h
        subst h2
        exact List.Subset.refl _
      | some itemSchema =>
        simp only [arrayRule] at h
        split at h
        · exact Except.noConfusion h
        · next itemExpr ctx₁ heq =>
            simp only [Except.ok.injEq, Prod.mk.injEq] at h
            obtain ⟨-, h2⟩ := h
            subst h2
            exact ihS itemSchema (rn ++ "-item") ctx itemExpr ctx₁ heq
    · -- reqPairsLoop
      intro ps req rn ctx es ctx' h
      cases ps with
      | nil =>
        simp only [reqPairsLoop, Except.ok.injEq, Prod.mk.injEq] at h
        obtain ⟨-, h2⟩ := h
        subst h2
        exact List.Subset.refl _
      | cons p rest =>
        obtain ⟨key, fs⟩ := p
        simp only [reqPairsLoop] at h
        by_cases hrk : req.contains key = true
        · simp only [hrk, if_true] at h
          split at h
          · exact Except.noConfusion h
          · next v ctx₁ heq1 =>
              split at h
              · exact Except.noConfusion h
              · next ps₂ ctx₂ heq2 =>
                  simp only [Except.ok.injEq, Prod.mk.injEq] at h
                  obtain ⟨-, h2⟩ := h
                  subst h2
                  exact List.Subset.trans
                    (ihS fs (rn ++ "-" ++ ruleNameForModel key) ctx v ctx₁ heq1)
                    (ihRq rest req rn ctx₁ ps₂ ctx₂ heq2)
        · simp only [Bool.not_eq_true] at hrk
          simp only [hrk, Bool.false_eq_true, if_false] at h
          exact ihRq rest req rn ctx es ctx' h
    · -- optPairsLoop
      intro ps req rn ctx es ctx' h
      cases ps with
      | nil =>
        simp only [optPairsLoop, Except.ok.injEq, Prod.mk.injEq] at h
        obtain ⟨-, h2⟩ := h
        subst h2
        exact List.Subset.refl _
      | cons p rest =>
        obtain ⟨key, fs⟩ := p
        simp only [optPairsLoop] at h
        by_cases hrk : req.contains key = true
        · simp only [hrk, if_true] at h
          exact ihOp rest req rn ctx es ctx' h
        · simp only [Bool.not_eq_true] at hrk
          simp only [hrk, Bool.false_eq_true, if_false] at h
          split at h
          · exact Except.noConfusion h
          · next v ctx₁ heq1 =>
              split at h
              · exact Except.noConfusion h
              · next ps₂ ctx₂ heq2 =>
                  simp only [Except.ok.injEq, Prod.mk.injEq] at h
                  obtain ⟨-, h2⟩ := h
                  subst h2
                  exact List.Subset.trans
                    (ihS fs (rn ++ "-" ++ ruleNameForModel key) ctx v ctx₁ heq1)
                    (ihOp rest req rn ctx₁ ps₂ ctx₂ heq2)
    · -- objectRule
      intro ps req rn ctx e ctx' h
      cases ps with
      | nil =>
        simp only [objectRule, Except.ok.injEq, Prod.mk.injEq] at h
        obtain ⟨-, h2⟩ := h
        subst h2
        exact List.Subset.refl _
      | cons p rest =>
        obtain ⟨k0, s0⟩ := p
        simp only [objectRule] at h
        split at h
        · exact Except.noConfusion h
        · next reqPs ctx₁ heq1 =>
            split at h
            · exact Except.noConfusion h
            · next optPs ctx₂ heq2 =>
                have hsub12 := List.Subset.trans
                  (ihRq ((k0, s0) :: rest) req rn ctx reqPs ctx₁ heq1)
                  (ihOp ((k0, s0) :: rest) req rn ctx₁ optPs ctx₂ heq2)
                split at h
                · simp only [Except.ok.injEq, Prod.mk.injEq] at h
                  obtain ⟨-, h2⟩ := h
                  subst h2
                  exact hsub12
                · simp only [Except.ok.injEq, Prod.mk.injEq] at h
                  obtain ⟨-, h2⟩ := h
                  subst h2
                  exact hsub12
                · split at h
                  · exact Except.noConfusion h
                  · next firstExpr ctx₃ heq3 =>
                      simp only [Except.ok.injEq, Prod.mk.injEq] at h
                      obtain ⟨-, h2⟩ := h
                      subst h2
                      exact List.Subset.trans hsub12
                        (ihS s0 (rn ++ "-" ++ ruleNameForModel k0) ctx₂ firstExpr ctx₃ heq3)

/-- `_enum_rule`'s per-value compile fails only with a
`GrammarGenerationError`, never by exhausting the recursion budget. -/
theorem enumChoice_no_noFuel (v : JVal) : enumChoice v ≠ .error .noFuel := by
  intro h
  cases v with
  | s str => simp [enumChoice] at h
  | b bv => cases bv <;> simp [enumChoice] at h
  | i n => simp [enumChoice] at h
  | null => simp [enumChoice] at h
  | other => simp [enumChoice] at h

theorem enumChoices_no_noFuel : ∀ vs : List JVal, enumChoices vs ≠ .error .noFuel := by
  intro vs
  induction vs with
  | nil => intro h; simp [enumChoices] at h
  | cons v rest ih =>
    intro h
    simp only [enumChoices] at h
    split at h
    · next e₀ heq =>
        injection h with h'
        subst h'
        exact enumChoice_no_noFuel v heq
    · next c heq =>
        split at h
        · next e₀ heq2 =>
            injection h with h'
            subst h'
            exact ih heq2
        · exact Except.noConfusion h

theorem enumRule_no_noFuel (vs : List JVal) : enumRule vs ≠ .error .noFuel := by
  intro h
  simp only [enumRule] at h
  split at h
  · next e₀ heq =>
      injection h with h'
      subst h'
      exact enumChoices_no_noFuel vs heq
  · exact Except.noConfusion h

/-- Distinctness invariant: every compiler function preserves
duplicate-freedom of the reserved rule names.  The only function that
adds a name, `resolveRef`, does so only after checking the name is
absent (grammar.py lines 213-216), so no rule is ever emitted twice. -/
theorem compiler_nodup (dfs : Defs) : ∀ n : Nat,
    (∀ s rn ctx e ctx', schemaToRule dfs n s rn ctx = .ok (e, ctx') →
      (keysOf ctx).Nodup → (keysOf ctx').Nodup) ∧
    (∀ t rn ctx e ctx', resolveRef dfs n t rn ctx = .ok (e, ctx') →
      (keysOf ctx).Nodup → (keysOf ctx').Nodup) ∧
    (∀ vs rn i ctx es ctx', handleAnyOf dfs n vs rn i ctx = .ok (es, ctx') →
      (keysOf ctx).Nodup → (keysOf ctx').Nodup) ∧
    (∀ it rn ctx e ctx', arrayRule dfs n it rn ctx = .ok (e, ctx') →
      (keysOf ctx).Nodup → (keysOf ctx').Nodup) ∧
    (∀ ps req rn ctx es ctx', reqPairsLoop dfs n ps req rn ctx = .ok (es, ctx') →
      (keysOf ctx).Nodup → (keysOf ctx').Nodup) ∧
    (∀ ps req rn ctx es ctx', optPairsLoop dfs n ps req rn ctx = .ok (es, ctx') →
      (keysOf ctx).Nodup → (keysOf ctx').Nodup) ∧
    (∀ ps req rn ctx e ctx', objectRule dfs n ps req rn ctx = .ok (e, ctx') →
      (keysOf ctx).Nodup → (keysOf ctx').Nodup) := by
  intro n
  induction n with
  | zero =>
    refine ⟨?_, ?_, ?_, ?_, ?_, ?_, ?_⟩
    · intro _ _ _ _ _ h; exact Except.noConfusion h
    · intro _ _ _ _ _ h; exact Except.noConfusion h
    · intro _ _ _ _ _ _ h; exact Except.noConfusion h
    · intro _ _ _ _ _ h; exact Except.noConfusion h
    · intro _ _ _ _ _ _ h; exact Except.noConfusion h
    · intro _ _ _ _ _ _ h; exact Except.noConfusion h
    · intro _ _ _ _ _ _ h; exact Except.noConfusion h
  | succ n ih =>
    obtain ⟨ihS, ihR, ihA, ihAr, ihRq, ihOp, ihOb⟩ := ih
    refine ⟨?_, ?_, ?_, ?_, ?_, ?_, ?_⟩
    · -- schemaToRule
      intro s rn ctx e ctx' h hnd
      cases s with
      | ref target =>
        simp only [schemaToRule] at h
        exact ihR target rn ctx e ctx' h hnd
      | anyOf vs =>
        simp only [schemaToRule] at h
        split at h
        · exact Except.noConfusion h
        · next es ctx₁ heq =>
            simp only [Except.ok.injEq, Prod.mk.injEq] at h
            obtain ⟨-, h2⟩ := h
            subst h2
            exact ihA vs rn 0 ctx es ctx₁ heq hnd
      | str ev =>
        cases ev with
        | none =>
          simp only [schemaToRule, Except.ok.injEq, Prod.mk.injEq] at h
          obtain ⟨-, h2⟩ := h
          subst h2
          exact hnd
        | some vals =>
          simp only [schemaToRule] at h
          split at h
          · exact Except.noConfusion h
          · simp only [Except.ok.injEq, Prod.mk.injEq] at h
            obtain ⟨-, h2⟩ := h
            subst h2
            exact hnd
      | integer =>
        simp only [schemaToRule, Except.ok.injEq, Prod.mk.injEq] at h
        obtain ⟨-, h2⟩ := h
        subst h2
        exact hnd
      | number =>
        simp only [schemaToRule, Except.ok.injEq, Prod.mk.injEq] at h
        obtain ⟨-, h2⟩ := h
        subst h2
        exact hnd
      | boolean =>
        simp only [schemaToRule, Except.ok.injEq, Prod.mk.injEq] at h
        obtain ⟨-, h2⟩ := h
        subst h2
        exact hnd
      | nullT =>
        simp only [schemaToRule, Except.ok.injEq, Prod.mk.injEq] at h
        obtain ⟨-, h2⟩ := h
        subst h2
        exact hnd
      | array items =>
        simp only [schemaToRule] at h
        exact ihAr items rn ctx e ctx' h hnd
      | object props required =>
        simp only [schemaToRule] at h
        exact ihOb props required rn ctx e ctx' h hnd
      | bareEnum vals =>
        simp only [schemaToRule] at h
        split at h
        · exact Except.noConfusion h
        · simp only [Except.ok.injEq, Prod.mk.injEq] at h
          obtain ⟨-, h2⟩ := h
          subst h2
          exact hnd
      | unsupported d =>
        simp only [schemaToRule] at h
        exact Except.noConfusion h
    · -- resolveRef
      intro target rn ctx e ctx' h hnd
      simp only [resolveRef] at h
      cases hpt : parseRefTarget target with
      | none =>
        simp only [hpt] at h
        exact Except.noConfusion h
      | some defName =>
        simp only [hpt] at h
        cases hlk : dfs.lookup defName with
        | none =>
          simp only [hlk] at h
          exact Except.noConfusion h
        | some defSchema =>
          simp only [hlk] at h
          by_cases hc : ctxHas ctx (ruleNameForModel defName) = true
          · simp only [hc, if_true, Except.ok.injEq, Prod.mk.injEq] at h
            obtain ⟨-, h2⟩ := h
            subst h2
            exact hnd
          · simp only [Bool.not_eq_true] at hc
            simp only [hc, Bool.false_eq_true, if_false] at h
            split at h
            · exact Except.noConfusion h
            · next expr ctx₂ heq =>
                simp only [Except.ok.injEq, Prod.mk.injEq] at h
                obtain ⟨-, h2⟩ := h
                subst h2
                have hnotmem : ruleNameForModel defName ∉ keysOf ctx :=
                  ctxHas_false_not_mem hc
                have hnd2 : (keysOf
                    (ctx ++ [(ruleNameForModel defName, GExpr.ruleRef "null")])).Nodup := by
                  rw [keysOf_append]
                  simp [List.nodup_append, hnd, hnotmem]
                have hout := ihS defSchema (ruleNameForModel defName)
                  (ctx ++ [(ruleNameForModel defName, GExpr.ruleRef "null")]) expr ctx₂ heq hnd2
                rw [keysOf_ctxSet]
                exact hout
    · -- handleAnyOf
      intro vs rn i ctx es ctx' h hnd
      cases vs with
      | nil =>
        simp only [handleAnyOf, Except.ok.injEq, Prod.mk.injEq] at h
        obtain ⟨-, h2⟩ := h
        subst h2
        exact hnd
      | cons v rest =>
        simp only [handleAnyOf] at h
        split at h
        · exact Except.noConfusion h
        · next ex ctx₁ heq1 =>
            split at h
            · exact Except.noConfusion h
            · next es₂ ctx₂ heq2 =>
                simp only [Except.ok.injEq, Prod.mk.injEq] at h
                obtain ⟨-, h2⟩ := h
                subst h2
                exact ihA rest rn (i + 1) ctx₁ es₂ ctx₂ heq2
                  (ihS v (rn ++ "-opt" ++ toString i) ctx ex ctx₁ heq1 hnd)
    · -- arrayRule
      intro it rn ctx e ctx' h hnd
      cases it with
      | none =>
        simp only [arrayRule, Except.ok.injEq, Prod.mk.injEq] at h
        obtain ⟨-, h2⟩ := h
        subst h2
        exact hnd
      | some itemSchema =>
        simp only [arrayRule] at h
        split at h
        · exact Except.noConfusion h
        · next itemExpr ctx₁ heq =>
            simp only [Except.ok.injEq, Prod.mk.injEq] at h
            obtain ⟨-, h2⟩ := h
            subst h2
            exact ihS itemSchema (rn ++ "-item") ctx itemExpr ctx₁ heq hnd
    · -- reqPairsLoop
      intro ps req rn ctx es ctx' h hnd
      cases ps with
      | nil =>
        simp only [reqPairsLoop, Except.ok.injEq, Prod.mk.injEq] at h
        obtain ⟨-, h2⟩ := h
        subst h2
        exact hnd
      | cons p rest =>
        obtain ⟨key, fs⟩ := p
        simp only [reqPairsLoop] at h
        by_cases hrk : req.contains key = true
        · simp only [hrk, if_true] at h
          split at h
          · exact Except.noConfusion h
          · next v ctx₁ heq1 =>
              split at h
              · exact Except.noConfusion h
              · next ps₂ ctx₂ heq2 =>
                  simp only [Except.ok.injEq, Prod.mk.injEq] at h
                  obtain ⟨-, h2⟩ := h
                  subst h2
                  exact ihRq rest req rn ctx₁ ps₂ ctx₂ heq2
                    (ihS fs (rn ++ "-" ++ ruleNameForModel key) ctx v ctx₁ heq1 hnd)
        · simp only [Bool.not_eq_true] at hrk
          simp only [hrk, Bool.false_eq_true, if_false] at h
          exact ihRq rest req rn ctx es ctx' h hnd
    · -- optPairsLoop
      intro ps req rn ctx es ctx' h hnd
      cases ps with
      | nil =>
        simp only [optPairsLoop, Except.ok.injEq, Prod.mk.injEq] at h
        obtain ⟨-, h2⟩ := h
        subst h2
        exact hnd
      | cons p rest =>
        obtain ⟨key, fs⟩ := p
        simp only [optPairsLoop] at h
        by_cases hrk : req.contains key = true
        · simp only [hrk, if_true] at h
          exact ihOp rest req rn ctx es ctx' h hnd
        · simp only [Bool.not_eq_true] at hrk
          simp only [hrk, Bool.false_eq_true, if_false] at h
          split at h
          · exact Except.noConfusion h
          · next v ctx₁ heq1 =>
              split at h
              · exact Except.noConfusion h
              · next ps₂ ctx₂ heq2 =>
                  simp only [Except.ok.injEq, Prod.mk.injEq] at h
                  obtain ⟨-, h2⟩ := h
                  subst h2
                  exact ihOp rest req rn ctx₁ ps₂ ctx₂ heq2
                    (ihS fs (rn ++ "-" ++ ruleNameForModel key) ctx v ctx₁ heq1 hnd)
    · -- objectRule
      intro ps req rn ctx e ctx' h hnd
      cases ps with
      | nil =>
        simp only [objectRule, Except.ok.injEq, Prod.mk.injEq] at h
        obtain ⟨-, h2⟩ := h
        subst h2
        exact hnd
      | cons p rest =>
        obtain ⟨k0, s0⟩ := p
        simp only [objectRule] at h
        split at h
        · exact Except.noConfusion h
        · next reqPs ctx₁ heq1 =>
            split at h
            · exact Except.noConfusion h
            · next optPs ctx₂ heq2 =>
                have hnd2 := ihOp ((k0, s0) :: rest) req rn ctx₁ optPs ctx₂ heq2
                  (ihRq ((k0, s0) :: rest) req rn ctx reqPs ctx₁ heq1 hnd)
                split at h
                · simp only [Except.ok.injEq, Prod.mk.injEq] at h
                  obtain ⟨-, h2⟩ := h
                  subst h2
                  exact hnd2
                · simp only [Except.ok.injEq, Prod.mk.injEq] at h
                  obtain ⟨-, h2⟩ := h
                  subst h2
                  exact hnd2
                · split at h
                  · exact Except.noConfusion h
                  · next firstExpr ctx₃ heq3 =>
                      simp only [Except.ok.injEq, Prod.mk.injEq] at h
                      obtain ⟨-, h2⟩ := h
                      subst h2
                      exact ihS s0 (rn ++ "-" ++ ruleNameForModel k0) ctx₂ firstExpr ctx₃
                        heq3 hnd2

/-- Termination of the compiler: with a recursion budget exceeding
`remainingDefs · * (defsSize · + 3)` plus the size of the node at hand,
no compiler function ever exhausts its budget.  The placeholder insertion
of `resolveRef` strictly decreases `remainingDefs`, which pays for the
(budget-bounded) work of compiling the referenced definition body. -/
theorem compiler_fuel_adequate (dfs : Defs) : ∀ n : Nat,
    (∀ s rn ctx,
      remainingDefs dfs ctx * (defsSize dfs + 3) + schemaSize s < n →
      schemaToRule dfs n s rn ctx ≠ .error .noFuel) ∧
    (∀ t rn ctx,
      remainingDefs dfs ctx * (defsSize dfs + 3) + 3 ≤ n →
      resolveRef dfs n t rn ctx ≠ .error .noFuel) ∧
    (∀ vs rn i ctx,
      remainingDefs dfs ctx * (defsSize dfs + 3) + schemaSizeList vs < n →
      handleAnyOf dfs n vs rn i ctx ≠ .error .noFuel) ∧
    (∀ it rn ctx,
      remainingDefs dfs ctx * (defsSize dfs + 3) + schemaSize (.array it) ≤ n →
      arrayRule dfs n it rn ctx ≠ .error .noFuel) ∧
    (∀ ps req rn ctx,
      remainingDefs dfs ctx * (defsSize dfs + 3) + schemaSizeProps ps < n →
      reqPairsLoop dfs n ps req rn ctx ≠ .error .noFuel) ∧
    (∀ ps req rn ctx,
      remainingDefs dfs ctx * (defsSize dfs + 3) + schemaSizeProps ps < n →
      optPairsLoop dfs n ps req rn ctx ≠ .error .noFuel) ∧
    (∀ ps req rn ctx,
      remainingDefs dfs ctx * (defsSize dfs + 3) + schemaSizeProps ps + 1 < n →
      objectRule dfs n ps req rn ctx ≠ .error .noFuel) := by
  intro n
  induction n with
  | zero =>
    refine ⟨?_, ?_, ?_, ?_, ?_, ?_, ?_⟩
    · intro _ _ _ hb; omega
    · intro _ _ _ hb; omega
    · intro _ _ _ _ hb; omega
    · intro it _ _ hb
      cases it <;> simp only [schemaSize] at hb <;> omega
    · intro _ _ _ _ hb; omega
    · intro _ _ _ _ hb; omega
    · intro _ _ _ _ hb; omega
  | succ n ih =>
    obtain ⟨ihS, ihR, ihA, ihAr, ihRq, ihOp, ihOb⟩ := ih
    refine ⟨?_, ?_, ?_, ?_, ?_, ?_, ?_⟩
    · -- schemaToRule
      intro s rn ctx hb h
      cases s with
      | ref target =>
        simp only [schemaToRule] at h
        simp only [schemaSize] at hb
        exact ihR target rn ctx (by omega) h
      | anyOf vs =>
        simp only [schemaToRule] at h
        simp only [schemaSize] at hb
        split at h
        · next e₀ heq =>
            injection h with h'
            subst h'
            exact ihA vs rn 0 ctx (by omega) heq
        · exact Except.noConfusion h
      | str ev =>
        cases ev with
        | none => simp only [schemaToRule] at h; exact Except.noConfusion h
        | some vals =>
          simp only [schemaToRule] at h
          split at h
          · next e₀ heq =>
              injection h with h'
              subst h'
              exact enumRule_no_noFuel vals heq
          · exact Except.noConfusion h
      | integer => simp only [schemaToRule] at h; exact Except.noConfusion h
      | number => simp only [schemaToRule] at h; exact Except.noConfusion h
      | boolean => simp only [schemaToRule] at h; exact Except.noConfusion h
      | nullT => simp only [schemaToRule] at h; exact Except.noConfusion h
      | array items =>
        simp only [schemaToRule] at h
        exact ihAr items rn ctx (by omega) h
      | object props required =>
        simp only [schemaToRule] at h
        simp only [schemaSize] at hb
        exact ihOb props required rn ctx (by omega) h
      | bareEnum vals =>
        simp only [schemaToRule] at h
        split at h
        · next e₀ heq =>
            injection h with h'
            subst h'
            exact enumRule_no_noFuel vals heq
        · exact Except.noConfusion h
      | unsupported d =>
        simp only [schemaToRule] at h
        injection h with h'
        exact GErr.noConfusion h'
    · -- resolveRef
      intro target rn ctx hb h
      simp only [resolveRef] at h
      cases hpt : parseRefTarget target with
      | none =>
        simp only [hpt] at h
        injection h with h'
        exact GErr.noConfusion h'
      | some defName =>
        simp only [hpt] at h
        cases hlk : dfs.lookup defName with
        | none =>
          simp only [hlk] at h
          injection h with h'
          exact GErr.noConfusion h'
        | some defSchema =>
          simp only [hlk] at h
          by_cases hc : ctxHas ctx (ruleNameForModel defName) = true
          · simp only [hc, if_true] at h
            exact Except.noConfusion h
          · simp only [Bool.not_eq_true] at hc
            simp only [hc, Bool.false_eq_true, if_false] at h
            split at h
            · next e₀ heq =>
                injection h with h'
                subst h'
                have hstrict := remainingDefs_strict (GExpr.ruleRef "null") hlk hc
                have hsz := schemaSize_le_defsSize dfs defName defSchema hlk
                have hmul := Nat.mul_le_mul_right (defsSize dfs + 3) hstrict
                rw [Nat.succ_mul] at hmul
                exact ihS defSchema (ruleNameForModel defName)
                  (ctx ++ [(ruleNameForModel defName, GExpr.ruleRef "null")])
                  (by omega) heq
            · exact Except.noConfusion h
    · -- handleAnyOf
      intro vs rn i ctx hb h
      cases vs with
      | nil => simp only [handleAnyOf] at h; exact Except.noConfusion h
      | cons v rest =>
        simp only [handleAnyOf] at h
        simp only [schemaSizeList] at hb
        split at h
        · next e₀ heq =>
            injection h with h'
            subst h'
            exact ihS v (rn ++ "-opt" ++ toString i) ctx (by omega) heq
        · next ex ctx₁ heq1 =>
            split at h
            · next e₀ heq2 =>
                injection h with h'
                subst h'
                have hRle := @remainingDefs_mono dfs _ _
                  ((compiler_mono dfs n).1 v (rn ++ "-opt" ++ toString i) ctx ex ctx₁ heq1)
                have hmul := Nat.mul_le_mul_right (defsSize dfs + 3) hRle
                exact ihA rest rn (i + 1) ctx₁ (by omega) heq2
            · exact Except.noConfusion h
    · -- arrayRule
      intro it rn ctx hb h
      cases it with
      | none => simp only [arrayRule] at h; exact Except.noConfusion h
      | some itemSchema =>
        simp only [arrayRule] at h
        simp only [schemaSize] at hb
        split at h
        · next e₀ heq =>
            injection h with h'
            subst h'
            exact ihS itemSchema (rn ++ "-item") ctx (by omega) heq
        · exact Except.noConfusion h
    · -- reqPairsLoop
      intro ps req rn ctx hb h
      cases ps with
      | nil => simp only [reqPairsLoop] at h; exact Except.noConfusion h
      | cons p rest =>
        obtain ⟨key, fs⟩ := p
        simp only [reqPairsLoop] at h
        simp only [schemaSizeProps] at hb
        by_cases hrk : req.contains key = true
        · simp only [hrk, if_true] at h
          split at h
          · next e₀ heq =>
              injection h with h'
              subst h'
              exact ihS fs (rn ++ "-" ++ ruleNameForModel key) ctx (by omega) heq
          · next v ctx₁ heq1 =>
              split at h
              · next e₀ heq2 =>
                  injection h with h'
                  subst h'
                  have hRle := @remainingDefs_mono dfs _ _
                    ((compiler_mono dfs n).1 fs (rn ++ "-" ++ ruleNameForModel key)
                      ctx v ctx₁ heq1)
                  have hmul := Nat.mul_le_mul_right (defsSize dfs + 3) hRle
                  exact ihRq rest req rn ctx₁ (by omega) heq2
              · exact Except.noConfusion h
        · simp only [Bool.not_eq_true] at hrk
          simp only [hrk, Bool.false_eq_true, if_false] at h
          exact ihRq rest req rn ctx (by omega) h
    · -- optPairsLoop
      intro ps req rn ctx hb h
      cases ps with
      | nil => simp only [optPairsLoop] at h; exact Except.noConfusion h
      | cons p rest =>
        obtain ⟨key, fs⟩ := p
        simp only [optPairsLoop] at h
        simp only [schemaSizeProps] at hb
        by_cases hrk : req.contains key = true
        · simp only [hrk, if_true] at h
          exact ihOp rest req rn ctx (by omega) h
        · simp only [Bool.not_eq_true] at hrk
          simp only [hrk, Bool.false_eq_true, if_false] at h
          split at h
          · next e₀ heq =>
              injection h with h'
              subst h'
              exact ihS fs (rn ++ "-" ++ ruleNameForModel key) ctx (by omega) heq
          · next v ctx₁ heq1 =>
              split at h
              · next e₀ heq2 =>
                  injection h with h'
                  subst h'
                  have hRle := @remainingDefs_mono dfs _ _
                    ((compiler_mono dfs n).1 fs (rn ++ "-" ++ ruleNameForModel key)
                      ctx v ctx₁ heq1)
                  have hmul := Nat.mul_le_mul_right (defsSize dfs + 3) hRle
                  exact ihOp rest req rn ctx₁ (by omega) heq2
              · exact Except.noConfusion h
    · -- objectRule
      intro ps req rn ctx hb h
      cases ps with
      | nil => simp only [objectRule] at h; exact Except.noConfusion h
      | cons p rest =>
        obtain ⟨k0, s0⟩ := p
        simp only [objectRule] at h
        split at h
        · next e₀ heq =>
            injection h with h'
            subst h'
            exact ihRq ((k0, s0) :: rest) req rn ctx (by omega) heq
        · next reqPs ctx₁ heq1 =>
            have hRle1 := @remainingDefs_mono dfs _ _
              ((compiler_mono dfs n).2.2.2.2.1 ((k0, s0) :: rest) req rn ctx reqPs ctx₁ heq1)
            have hmul1 := Nat.mul_le_mul_right (defsSize dfs + 3) hRle1
            split at h
            · next e₀ heq2 =>
                injection h with h'
                subst h'
                exact ihOp ((k0, s0) :: rest) req rn ctx₁ (by omega) heq2
            · next optPs ctx₂ heq2 =>
                have hRle2 := @remainingDefs_mono dfs _ _
                  ((compiler_mono dfs n).2.2.2.2.2.1 ((k0, s0) :: rest) req rn ctx₁
                    optPs ctx₂ heq2)
                have hmul2 := Nat.mul_le_mul_right (defsSize dfs + 3) hRle2
                split at h
                · exact Except.noConfusion h
                · exact Except.noConfusion h
                · split at h
                  · next e₀ heq3 =>
                      injection h with h'
                      subst h'
                      simp only [schemaSizeProps] at hb
                      exact ihS s0 (rn ++ "-" ++ ruleNameForModel k0) ctx₂ (by omega) heq3
                  · exact Except.noConfusion h

/-- `generate` on a model whose JSON schema extraction succeeds never
exhausts the recursion budget it hands to the compiler. -/
theorem generate_no_noFuel (st : GenState) (name : String) (root : Schema) (dfs : Defs) :
    generate st ⟨name, .ok ⟨root, dfs⟩⟩ ≠ .error .noFuel := by
  intro h
  simp only [generate] at h
  split at h
  · next e₀ heq =>
      injection h with h'
      subst h'
      have hR := remainingDefs_le_length dfs ([] : Ctx)
      have hmul := Nat.mul_le_mul_right (defsSize dfs + 3) hR
      have hbound : remainingDefs dfs [] * (defsSize dfs + 3) + schemaSize root <
          genFuel dfs root := by
        unfold genFuel
        rw [Nat.succ_mul]
        omega
      exact (compiler_fuel_adequate dfs (genFuel dfs root)).1 root "root" [] hbound heq
  · exact Except.noConfusion h

/-- C1: On a schema with a direct or indirect `$ref` cycle among
`$defs`, compilation terminates and emits exactly one rule per distinct
referenced definition.  Formally: (1) a revisit of an already-reserved
definition name returns the bare rule-name reference without recursing
(grammar.py lines 213-216); (2) `generate` never exhausts its recursion
budget, the placeholder insertion before each recursive descent
(line 218) strictly decreasing the number of unreserved definitions;
(3) the emitted helper-rule names of any successful `generate` are
duplicate-free; (4) on the self-referential `Node` model the grammar
contains exactly the one helper rule `node`; and (5) that rule's final
body references `node` itself — the placeholder was overwritten with the
real body after the recursive compile completed (line 227). -/
theorem grammar_cycle_safety :
    (∀ dfs n target dn σ rn ctx,
        parseRefTarget target = some dn →
        dfs.lookup dn = some σ →
        ctxHas ctx (ruleNameForModel dn) = true →
        resolveRef dfs (n + 1) target rn ctx =
          .ok (.ruleRef (ruleNameForModel dn), ctx)) ∧
    (∀ st name root dfs, generate st ⟨name, .ok ⟨root, dfs⟩⟩ ≠ .error .noFuel) ∧
    (∀ st model out, generate st model = .ok out → (keysOf out.2.extraRules).Nodup) ∧
    ((match generate {} nodeModel with
      | .ok (_, st) => keysOf st.extraRules
      | .error _ => []) = ["node"]) ∧
    ((match generate {} nodeModel with
      | .ok (_, st) =>
          (match st.extraRules.lookup "node" with
           | some body => containsSeq "node".data (render body).data
           | none => false)
      | .error _ => false) = true) := by
  refine ⟨?_, ?_, ?_, ?_, ?_⟩
  · intro dfs n target dn σ rn ctx hpt hlk hc
    simp only [resolveRef, hpt, hlk, hc, if_true]
  · exact generate_no_noFuel
  · intro st model out h
    obtain ⟨name, js⟩ := model
    cases js with
    | error exc =>
      simp only [generate] at h
      exact Except.noConfusion h
    | ok ms =>
      obtain ⟨root, dfs⟩ := ms
      simp only [generate] at h
      split at h
      · exact Except.noConfusion h
      · next rootExpr rules heq =>
          injection h with h'
          subst h'
          exact (compiler_nodup dfs (genFuel dfs root)).1 root "root" [] rootExpr rules heq
            (by simp [keysOf])
  · rfl
  · rfl

theorem grammar_cycle_safety_witness :
    resolveRef [("Node", Schema.nullT)] 5 "#/$defs/Node" "root"
        [("node", GExpr.ruleRef "null")] =
      .ok (.ruleRef "node", [("node", GExpr.ruleRef "null")]) :=
  grammar_cycle_safety.1 [("Node", Schema.nullT)] 4 "#/$defs/Node" "Node" Schema.nullT
    "root" [("node", GExpr.ruleRef "null")] (by rfl) (by rfl) (by rfl)

/-! ## Acceptance of object-rule bodies (grammar.py `_object_rule`) -/

theorem gmatch_reqPair (env : String → Option GExpr)
    (hws : GMatch env (.ruleRef "ws") [])
    (key : String) {v : GExpr} {w : List Char} (hv : GMatch env v w) :
    GMatch env (reqPair key v) (pairTxt key w) := by
  have hq : GMatch env (.lit "\"") ['"'] := GMatch.lit "\""
  have hk : GMatch env (.lit key) key.data := GMatch.lit key
  have hc : GMatch env (.lit ":") [':'] := GMatch.lit ":"
  have t1 : GMatch env (.seqWS " " (.ruleRef "ws") v) w := GMatch.seqWS hws hv
  have t2 : GMatch env (.seqWS " " (.lit ":") (.seqWS " " (.ruleRef "ws") v))
      (':' :: w) := GMatch.seqWS hc t1
  have t3 : GMatch env (.seqWS " " (.ruleRef "ws")
      (.seqWS " " (.lit ":") (.seqWS " " (.ruleRef "ws") v))) (':' :: w) :=
    GMatch.seqWS hws t2
  have t4 : GMatch env (.seqWS " " (.lit "\"")
      (.seqWS " " (.ruleRef "ws")
        (.seqWS " " (.lit ":") (.seqWS " " (.ruleRef "ws") v)))) ('"' :: ':' :: w) :=
    GMatch.seqWS hq t3
  have t5 : GMatch env (.seqWS " " (.lit key)
      (.seqWS " " (.lit "\"")
        (.seqWS " " (.ruleRef "ws")
          (.seqWS " " (.lit ":") (.seqWS " " (.ruleRef "ws") v)))))
      (key.data ++ '"' :: ':' :: w) := GMatch.seqWS hk t4
  exact GMatch.seqWS hq t5

theorem gmatch_optFragment_some (env : String → Option GExpr)
    (hws : GMatch env (.ruleRef "ws") [])
    (key : String) {v : GExpr} {w : List Char} (hv : GMatch env v w) :
    GMatch env (optFragment key v) (',' :: pairTxt key w) := by
  have hcm : GMatch env (.lit ",") [','] := GMatch.lit ","
  have t1 : GMatch env (.seqWS " " (.ruleRef "ws") (reqPair key v)) (pairTxt key w) :=
    GMatch.seqWS hws (gmatch_reqPair env hws key hv)
  have t2 : GMatch env (.seqWS " " (.lit ",") (.seqWS " " (.ruleRef "ws") (reqPair key v)))
      (',' :: pairTxt key w) := GMatch.seqWS hcm t1
  have t3 : GMatch env (.seqWS " " (.ruleRef "ws")
      (.seqWS " " (.lit ",") (.seqWS " " (.ruleRef "ws") (reqPair key v))))
      (',' :: pairTxt key w) := GMatch.seqWS hws t2
  exact GMatch.optSome t3

theorem gmatch_closeObj (env : String → Option GExpr)
    (hws : GMatch env (.ruleRef "ws") []) {acc : GExpr} {aw : List Char}
    (hacc : GMatch env acc aw) :
    GMatch env (closeObj acc) (aw ++ ['\x7d']) := by
  have hb : GMatch env (.lit "\x7d") ['\x7d'] := GMatch.lit "\x7d"
  have t1 : GMatch env (.seqWS " " (.ruleRef "ws") (.lit "\x7d")) ['\x7d'] :=
    GMatch.seqWS hws hb
  exact GMatch.seqWS hacc t1

theorem gmatch_objStart (env : String → Option GExpr)
    (hws : GMatch env (.ruleRef "ws") []) {p0 : GExpr} {w0 : List Char}
    (h : GMatch env p0 w0) :
    GMatch env (objStart p0) ('\x7b' :: w0) := by
  have hb : GMatch env (.lit "\x7b") ['\x7b'] := GMatch.lit "\x7b"
  exact GMatch.seqWS hb (GMatch.seqWS hws h)

theorem gmatch_emptyObj (env : String → Option GExpr)
    (hws : GMatch env (.ruleRef "ws") []) :
    GMatch env emptyObjExpr ['\x7b', '\x7d'] := by
  have hb : GMatch env (.lit "\x7b") ['\x7b'] := GMatch.lit "\x7b"
  have hd : GMatch env (.lit "\x7d") ['\x7d'] := GMatch.lit "\x7d"
  exact GMatch.seqWS hb (GMatch.seqWS hws hd)

theorem gmatch_noReqBody_empty (env : String → Option GExpr)
    (hws : GMatch env (.ruleRef "ws") [])
    (k0 : String) (firstExpr : GExpr) (restOpt : List GExpr) :
    GMatch env (noReqBody k0 firstExpr restOpt) ['\x7b', '\x7d'] := by
  have hb : GMatch env (.lit "\x7b") ['\x7b'] := GMatch.lit "\x7b"
  have hacc : GMatch env (.seqWS "  " (.lit "\x7b")
      (.seqWS " " (.ruleRef "ws")
        (.opt (restOpt.foldl addOptPair (reqPair k0 firstExpr))))) ['\x7b'] :=
    GMatch.seqWS hb (GMatch.seqWS hws GMatch.optNone)
  exact gmatch_closeObj env hws hacc

theorem commaJoin_append (a b : List (String × List Char)) :
    commaJoin (a ++ b) = commaJoin a ++ commaJoin b := by
  simp [commaJoin]

theorem filter_map_fst {β : Type} (sel : String → Bool) :
    ∀ l : List (String × β),
      (l.map Prod.fst).filter sel = (l.filter (fun q => sel q.1)).map Prod.fst := by
  intro l
  induction l with
  | nil => rfl
  | cons q rest ih =>
    by_cases h : sel q.1 = true
    · simp [List.filter_cons, h, ih]
    · simp only [Bool.not_eq_true] at h
      simp [List.filter_cons, h, ih]

theorem gmatch_req_chain (env : String → Option GExpr)
    (hws : GMatch env (.ruleRef "ws") []) :
    ∀ (l : List (String × GExpr × List Char)) (acc : GExpr) (aw : List Char),
      GMatch env acc aw →
      (∀ q ∈ l, GMatch env q.2.1 q.2.2) →
      GMatch env ((l.map (fun q => reqPair q.1 q.2.1)).foldl addReqPair acc)
        (aw ++ commaJoin (l.map (fun q => (q.1, q.2.2)))) := by
  intro l
  induction l with
  | nil =>
    intro acc aw hacc _
    simpa [commaJoin] using hacc
  | cons q rest ih =>
    intro acc aw hacc hall
    have hq := hall q (by simp)
    have hstep : GMatch env (addReqPair acc (reqPair q.1 q.2.1))
        (aw ++ (',' :: pairTxt q.1 q.2.2)) := by
      have hcm : GMatch env (.lit ",") [','] := GMatch.lit ","
      have t1 : GMatch env (.seqWS " " (.ruleRef "ws") (reqPair q.1 q.2.1))
          (pairTxt q.1 q.2.2) := GMatch.seqWS hws (gmatch_reqPair env hws q.1 hq)
      have t2 : GMatch env
          (.seqWS " " (.lit ",") (.seqWS " " (.ruleRef "ws") (reqPair q.1 q.2.1)))
          (',' :: pairTxt q.1 q.2.2) := GMatch.seqWS hcm t1
      have t3 : GMatch env (.seqWS " " (.ruleRef "ws")
          (.seqWS " " (.lit ",") (.seqWS " " (.ruleRef "ws") (reqPair q.1 q.2.1))))
          (',' :: pairTxt q.1 q.2.2) := GMatch.seqWS hws t2
      exact GMatch.seqWS hacc t3
    have hrec := ih (addReqPair acc (reqPair q.1 q.2.1)) (aw ++ (',' :: pairTxt q.1 q.2.2))
      hstep (fun x hx => hall x (by simp [hx]))
    simpa [commaJoin, List.append_assoc] using hrec

theorem gmatch_opt_chain (env : String → Option GExpr)
    (hws : GMatch env (.ruleRef "ws") []) (sel : String → Bool) :
    ∀ (l : List (String × GExpr × List Char)) (acc : GExpr) (aw : List Char),
      GMatch env acc aw →
      (∀ q ∈ l, GMatch env q.2.1 q.2.2) →
      GMatch env ((l.map (fun q => optFragment q.1 q.2.1)).foldl addOptPair acc)
        (aw ++ commaJoin ((l.filter (fun q => sel q.1)).map (fun q => (q.1, q.2.2)))) := by
  intro l
  induction l with
  | nil =>
    intro acc aw hacc _
    simpa [commaJoin] using hacc
  | cons q rest ih =>
    intro acc aw hacc hall
    have hq := hall q (by simp)
    by_cases hsel : sel q.1 = true
    · have hstep : GMatch env (addOptPair acc (optFragment q.1 q.2.1))
          (aw ++ (',' :: pairTxt q.1 q.2.2)) :=
        GMatch.seqWS hacc (gmatch_optFragment_some env hws q.1 hq)
      have hrec := ih (addOptPair acc (optFragment q.1 q.2.1))
        (aw ++ (',' :: pairTxt q.1 q.2.2)) hstep (fun x hx => hall x (by simp [hx]))
      simpa [List.filter_cons, hsel, commaJoin, List.append_assoc] using hrec
    · simp only [Bool.not_eq_true] at hsel
      have hstep : GMatch env (addOptPair acc (optFragment q.1 q.2.1)) (aw ++ []) :=
        GMatch.seqWS hacc GMatch.optNone
      rw [List.append_nil] at hstep
      have hrec := ih (addOptPair acc (optFragment q.1 q.2.1)) aw hstep
        (fun x hx => hall x (by simp [hx]))
      simpa [List.filter_cons, hsel] using hrec

/-- Specification of the required-fields loop: the produced expressions
are exactly the `reqPair` wrappings, in `properties` order, of the fields
listed in `required`, and (given that every successful field compile is
inhabited) each carries an accepted word. -/
theorem reqPairsLoop_words (dfs : Defs) (env : String → Option GExpr) :
    ∀ (props : List (String × Schema)) (n : Nat) (required : List String) (rn : String)
      (ctx : Ctx) (ps : List GExpr) (ctx' : Ctx),
      (∀ p ∈ props, ∀ (m : Nat) (rname : String) (c : Ctx) (e : GExpr) (c' : Ctx),
        schemaToRule dfs m p.2 rname c = .ok (e, c') → ∃ w, GMatch env e w) →
      reqPairsLoop dfs n props required rn ctx = .ok (ps, ctx') →
      ∃ l : List (String × GExpr × List Char),
        ps = l.map (fun q => reqPair q.1 q.2.1) ∧
        l.map Prod.fst = (props.filter (fun p => required.contains p.1)).map Prod.fst ∧
        ∀ q ∈ l, GMatch env q.2.1 q.2.2 := by
  intro props
  induction props with
  | nil =>
    intro n required rn ctx ps ctx' _ h
    cases n with
    | zero => exact Except.noConfusion h
    | succ m =>
      simp only [reqPairsLoop, Except.ok.injEq, Prod.mk.injEq] at h
      obtain ⟨h1, -⟩ := h
      subst h1
      exact ⟨[], rfl, by simp, by simp⟩
  | cons p rest ih =>
    intro n required rn ctx ps ctx' hv h
    cases n with
    | zero => exact Except.noConfusion h
    | succ m =>
      obtain ⟨key, fs⟩ := p
      simp only [reqPairsLoop] at h
      by_cases hrk : required.contains key = true
      · simp only [hrk, if_true] at h
        split at h
        · exact Except.noConfusion h
        · next v ctx₁ heq1 =>
            split at h
            · exact Except.noConfusion h
            · next ps₂ ctx₂ heq2 =>
                simp only [Except.ok.injEq, Prod.mk.injEq] at h
                obtain ⟨h1, -⟩ := h
                obtain ⟨l, hl1, hl2, hl3⟩ := ih m required rn ctx₁ ps₂ ctx₂
                  (fun x hx => hv x (by simp [hx])) heq2
                obtain ⟨w, hw⟩ := hv (key, fs) (by simp) m _ ctx v ctx₁ heq1
                refine ⟨(key, v, w) :: l, ?_, ?_, ?_⟩
                · rw [← h1, hl1]
                  rfl
                · rw [contains_eq_decide_mem] at hrk
                  have hmem := of_decide_eq_true hrk
                  simp [List.filter_cons, hmem, hl2]
                · intro q hq
                  rcases List.mem_cons.mp hq with rfl | hq'
                  · exact hw
                  · exact hl3 q hq'
      · simp only [Bool.not_eq_true] at hrk
        simp only [hrk, Bool.false_eq_true, if_false] at h
        obtain ⟨l, hl1, hl2, hl3⟩ := ih m required rn ctx ps ctx'
          (fun x hx => hv x (by simp [hx])) h
        rw [contains_eq_decide_mem] at hrk
        have hmem := of_decide_eq_false hrk
        exact ⟨l, hl1, by simp [List.filter_cons, hmem, hl2], hl3⟩

/-- Specification of the optional-fields loop, dual to
`reqPairsLoop_words`: `optFragment` wrappings of the fields *not* listed
in `required`. -/
theorem optPairsLoop_words (dfs : Defs) (env : String → Option GExpr) :
    ∀ (props : List (String × Schema)) (n : Nat) (required : List String) (rn : String)
      (ctx : Ctx) (ps : List GExpr) (ctx' : Ctx),
      (∀ p ∈ props, ∀ (m : Nat) (rname : String) (c : Ctx) (e : GExpr) (c' : Ctx),
        schemaToRule dfs m p.2 rname c = .ok (e, c') → ∃ w, GMatch env e w) →
      optPairsLoop dfs n props required rn ctx = .ok (ps, ctx') →
      ∃ l : List (String × GExpr × List Char),
        ps = l.map (fun q => optFragment q.1 q.2.1) ∧
        l.map Prod.fst =
          (props.filter (fun p => !(required.contains p.1))).map Prod.fst ∧
        ∀ q ∈ l, GMatch env q.2.1 q.2.2 := by
  intro props
  induction props with
  | nil =>
    intro n required rn ctx ps ctx' _ h
    cases n with
    | zero => exact Except.noConfusion h
    | succ m =>
      simp only [optPairsLoop, Except.ok.injEq, Prod.mk.injEq] at h
      obtain ⟨h1, -⟩ := h
      subst h1
      exact ⟨[], rfl, by simp, by simp⟩
  | cons p rest ih =>
    intro n required rn ctx ps ctx' hv h
    cases n with
    | zero => exact Except.noConfusion h
    | succ m =>
      obtain ⟨key, fs⟩ := p
      simp only [optPairsLoop] at h
      by_cases hrk : required.contains key = true
      · simp only [hrk, if_true] at h
        obtain ⟨l, hl1, hl2, hl3⟩ := ih m required rn ctx ps ctx'
          (fun x hx => hv x (by simp [hx])) h
        rw [contains_eq_decide_mem] at hrk
        have hmem := of_decide_eq_true hrk
        exact ⟨l, hl1, by simp [List.filter_cons, hmem, hl2], hl3⟩
      · simp only [Bool.not_eq_true] at hrk
        simp only [hrk, Bool.false_eq_true, if_false] at h
        split at h
        · exact Except.noConfusion h
        · next v ctx₁ heq1 =>
            split at h
            · exact Except.noConfusion h
            · next ps₂ ctx₂ heq2 =>
                simp only [Except.ok.injEq, Prod.mk.injEq] at h
                obtain ⟨h1, -⟩ := h
                obtain ⟨l, hl1, hl2, hl3⟩ := ih m required rn ctx₁ ps₂ ctx₂
                  (fun x hx => hv x (by simp [hx])) heq2
                obtain ⟨w, hw⟩ := hv (key, fs) (by simp) m _ ctx v ctx₁ heq1
                refine ⟨(key, v, w) :: l, ?_, ?_, ?_⟩
                · rw [← h1, hl1]
                  rfl
                · rw [contains_eq_decide_mem] at hrk
                  have hmem := of_decide_eq_false hrk
                  simp [List.filter_cons, hmem, hl2]
                · intro q hq
                  rcases List.mem_cons.mp hq with rfl | hq'
                  · exact hw
                  · exact hl3 q hq'

theorem map_eq_nil_imp {α β : Type} {f : α → β} {l : List α} (h : l.map f = []) : l = [] := by
  cases l with
  | nil => rfl
  | cons a b => simp at h

theorem map_fst_pairs {l : List (String × GExpr × List Char)} :
    (l.map (fun q => (q.1, q.2.2))).map Prod.fst = l.map Prod.fst := by
  induction l with
  | nil => rfl
  | cons q rest ih => simp [ih]

/-- On an object schema with no required fields, the first optional
field is *not* emitted as a self-contained `("," "key" ":" value)?`
fragment: it appears bare inside a single group shared with the other
optional fields (grammar.py lines 320-334), so the emitted body contains
the second field's self-contained fragment but not the first field's. -/
theorem object_all_optional_counterexample :
    objectRule [] 9 [("a", Schema.boolean), ("b", Schema.boolean)] [] "root" [] =
      .ok (noReqBody "a" (.altN [.ruleRef "true", .ruleRef "false"])
            [optFragment "b" (.altN [.ruleRef "true", .ruleRef "false"])], []) ∧
    containsSeq
      (render (optFragment "a" (.altN [.ruleRef "true", .ruleRef "false"]))).data
      (render (noReqBody "a" (.altN [.ruleRef "true", .ruleRef "false"])
        [optFragment "b" (.altN [.ruleRef "true", .ruleRef "false"])])).data = false ∧
    containsSeq
      (render (optFragment "b" (.altN [.ruleRef "true", .ruleRef "false"]))).data
      (render (noReqBody "a" (.altN [.ruleRef "true", .ruleRef "false"])
        [optFragment "b" (.altN [.ruleRef "true", .ruleRef "false"])])).data = true :=
  ⟨rfl, rfl, rfl⟩

/-- C2 (amended): for every object schema that compiles, (a) if no field
is required the compiled body accepts the empty object `\x7b\x7d`, and
(b) if at least one field is required then for *every* subset of the
optional fields there is an accepted instance containing exactly the
required fields followed by that subset, in declared order, with no
dangling comma — given that the preamble `ws` rule accepts the empty
string and every successfully compiled field value expression accepts
some word.  The original claim's universal subset property fails for
objects with no required field: only subsets containing the first
optional field (or the empty subset) are accepted, because the first
optional field is emitted bare inside the shared group
(`object_all_optional_counterexample`). -/
theorem object_optional_subsets_amended
    (env : String → Option GExpr) (dfs : Defs) (n : Nat)
    (props : List (String × Schema)) (required : List String)
    (rn : String) (ctx ctx' : Ctx) (body : GExpr)
    (hws : GMatch env (.ruleRef "ws") [])
    (Hval : ∀ p ∈ props, ∀ (m : Nat) (rname : String) (c : Ctx) (e : GExpr) (c' : Ctx),
      schemaToRule dfs m p.2 rname c = .ok (e, c') → ∃ w, GMatch env e w)
    (hok : objectRule dfs n props required rn ctx = .ok (body, ctx')) :
    ((props.filter (fun p => required.contains p.1)) = [] →
        GMatch env body ['\x7b', '\x7d']) ∧
    (∀ sel : String → Bool,
        (props.filter (fun p => required.contains p.1)) ≠ [] →
        ∃ pairs : List (String × List Char),
          pairs.map Prod.fst =
            ((props.filter (fun p => required.contains p.1)).map Prod.fst) ++
              (((props.filter (fun p => !(required.contains p.1))).map Prod.fst).filter
                sel) ∧
          GMatch env body (instanceTxt pairs)) := by
  cases n with
  | zero => exact Except.noConfusion hok
  | succ m =>
    cases props with
    | nil =>
      simp only [objectRule, Except.ok.injEq, Prod.mk.injEq] at hok
      obtain ⟨h1, -⟩ := hok
      subst h1
      constructor
      · intro _
        exact gmatch_emptyObj env hws
      · intro sel hne
        exact absurd rfl hne
    | cons p rest =>
      obtain ⟨k0, s0⟩ := p
      simp only [objectRule] at hok
      split at hok
      · exact Except.noConfusion hok
      · next reqPs ctx₁ heq1 =>
          split at hok
          · exact Except.noConfusion hok
          · next optPs ctx₂ heq2 =>
              obtain ⟨lr, hr1, hr2, hr3⟩ := reqPairsLoop_words dfs env ((k0, s0) :: rest) m
                required rn ctx reqPs ctx₁ Hval heq1
              obtain ⟨lo, ho1, ho2, ho3⟩ := optPairsLoop_words dfs env ((k0, s0) :: rest) m
                required rn ctx₁ optPs ctx₂ Hval heq2
              split at hok
              · -- no pairs at all: empty-object body
                simp only [Except.ok.injEq, Prod.mk.injEq] at hok
                obtain ⟨h1, -⟩ := hok
                subst h1
                constructor
                · intro _
                  exact gmatch_emptyObj env hws
                · intro sel hne
                  have hlr : lr = [] := map_eq_nil_imp hr1.symm
                  subst hlr
                  simp only [List.map_nil] at hr2
                  exact absurd (map_eq_nil_imp hr2.symm) hne
              · -- at least one required field
                next p0 restReq =>
                  simp only [Except.ok.injEq, Prod.mk.injEq] at hok
                  obtain ⟨h1, -⟩ := hok
                  subst h1
                  constructor
                  · intro ha
                    rw [ha] at hr2
                    simp only [List.map_nil] at hr2
                    have hlr := map_eq_nil_imp hr2
                    subst hlr
                    simp at hr1
                  · intro sel hne
                    cases lr with
                    | nil => simp at hr1
                    | cons q0 lrest =>
                      simp only [List.map_cons] at hr1
                      injection hr1 with hp0 hrest
                      subst hp0
                      have hq0 : GMatch env q0.2.1 q0.2.2 := hr3 q0 (by simp)
                      have base : GMatch env (objStart (reqPair q0.1 q0.2.1))
                          ('\x7b' :: pairTxt q0.1 q0.2.2) :=
                        gmatch_objStart env hws (gmatch_reqPair env hws q0.1 hq0)
                      have chain1 := gmatch_req_chain env hws lrest
                        (objStart (reqPair q0.1 q0.2.1)) ('\x7b' :: pairTxt q0.1 q0.2.2)
                        base (fun x hx => hr3 x (by simp [hx]))
                      have chain2 := gmatch_opt_chain env hws sel lo
                        ((lrest.map (fun q => reqPair q.1 q.2.1)).foldl addReqPair
                          (objStart (reqPair q0.1 q0.2.1)))
                        (('\x7b' :: pairTxt q0.1 q0.2.2) ++
                          commaJoin (lrest.map (fun q => (q.1, q.2.2))))
                        chain1 ho3
                      have final := gmatch_closeObj env hws chain2
                      refine ⟨(q0.1, q0.2.2) ::
                        (lrest.map (fun q => (q.1, q.2.2)) ++
                          ((lo.filter (fun q => sel q.1)).map (fun q => (q.1, q.2.2)))),
                        ?_, ?_⟩
                      · rw [← hr2, ← ho2, filter_map_fst]
                        simp only [List.map_cons, List.map_append, map_fst_pairs]
                        simp
                      · rw [hrest, ho1]
                        have hw : instanceTxt ((q0.1, q0.2.2) ::
                            (lrest.map (fun q => (q.1, q.2.2)) ++
                              ((lo.filter (fun q => sel q.1)).map
                                (fun q => (q.1, q.2.2))))) =
                            ((('\x7b' :: pairTxt q0.1 q0.2.2) ++
                              commaJoin (lrest.map (fun q => (q.1, q.2.2)))) ++
                              commaJoin ((lo.filter (fun q => sel q.1)).map
                                (fun q => (q.1, q.2.2)))) ++ ['\x7d'] := by
                          simp [instanceTxt, commaJoin_append, List.append_assoc]
                        rw [hw]
                        exact final
              · -- no required field, at least one optional: shared group
                next o restOpt =>
                  split at hok
                  · exact Except.noConfusion hok
                  · next firstExpr ctx₃ heq3 =>
                      simp only [Except.ok.injEq, Prod.mk.injEq] at hok
                      obtain ⟨h1, -⟩ := hok
                      subst h1
                      constructor
                      · intro _
                        exact gmatch_noReqBody_empty env hws k0 firstExpr restOpt
                      · intro sel hne
                        have hlr : lr = [] := map_eq_nil_imp hr1.symm
                        subst hlr
                        simp only [List.map_nil] at hr2
                        exact absurd (map_eq_nil_imp hr2.symm) hne

theorem object_optional_subsets_amended_witness :
    GMatch preambleEnv
      (noReqBody "a" (.altN [.ruleRef "true", .ruleRef "false"])
        [optFragment "b" (.altN [.ruleRef "true", .ruleRef "false"])])
      ['\x7b', '\x7d'] ∧
    (∃ pairs : List (String × List Char),
      pairs.map Prod.fst = ["a", "b"] ∧
      GMatch preambleEnv
        (reqBody (reqPair "a" (.altN [.ruleRef "true", .ruleRef "false"])) []
          [optFragment "b" (.altN [.ruleRef "true", .ruleRef "false"])])
        (instanceTxt pairs)) := by
  have hws : GMatch preambleEnv (.ruleRef "ws") [] :=
    GMatch.ruleRef (by rfl) GMatch.starNil
  have hval : ∀ p ∈ [("a", Schema.boolean), ("b", Schema.boolean)],
      ∀ (m : Nat) (rname : String) (c : Ctx) (e : GExpr) (c' : Ctx),
        schemaToRule [] m p.2 rname c = .ok (e, c') → ∃ w, GMatch preambleEnv e w := by
    intro p hp m rname c e c' hcomp
    have hp2 : p.2 = Schema.boolean := by
      simp at hp
      rcases hp with rfl | rfl <;> rfl
    rw [hp2] at hcomp
    cases m with
    | zero => exact Except.noConfusion hcomp
    | succ k =>
      simp only [schemaToRule, Except.ok.injEq, Prod.mk.injEq] at hcomp
      obtain ⟨he, -⟩ := hcomp
      subst he
      exact ⟨"true".data,
        @GMatch.altN preambleEnv [GExpr.ruleRef "true", GExpr.ruleRef "false"]
          (GExpr.ruleRef "true") ("true".data)
          (by simp) (GMatch.ruleRef (by rfl) (GMatch.lit "true"))⟩
  constructor
  · exact (object_optional_subsets_amended preambleEnv [] 9
      [("a", Schema.boolean), ("b", Schema.boolean)] [] "root" [] []
      (noReqBody "a" (.altN [.ruleRef "true", .ruleRef "false"])
        [optFragment "b" (.altN [.ruleRef "true", .ruleRef "false"])])
      hws hval rfl).1 rfl
  · exact (object_optional_subsets_amended preambleEnv [] 9
      [("a", Schema.boolean), ("b", Schema.boolean)] ["a"] "root" [] []
      (reqBody (reqPair "a" (.altN [.ruleRef "true", .ruleRef "false"])) []
        [optFragment "b" (.altN [.ruleRef "true", .ruleRef "false"])])
      hws hval rfl).2 (fun _ => true) (fun hc => List.noConfusion hc)

end StructuredLLM
